import Mathlib

-- Verification development for the cpp-amalgamate source-inlining engine.
-- The definitions below are a shallow embedding of the Rust sources:
--   * namespace CppAmalgamate: the current engine (src/process.rs, src/filter.rs,
--     src/logging.rs, src/cli.rs), with the file system, the path resolver and
--     the glob matcher abstracted as oracle functions inside `Config`.
--   * namespace CppAmalgamate.V1: the legacy single-file engine (src/main.rs),
--     which owns blank-line trimming and the begin/end comment templates.
-- Machine integers (usize) are modelled as Nat; the EMPTY_STACK_IDX sentinel
-- (usize::MAX, never a valid index in practice) is modelled as Option Nat with
-- none playing the sentinel role.  Rust panics (assert!, out-of-bounds
-- indexing, .expect) are modelled as the distinguished failure `Failure.bug`;
-- anyhow errors as `Failure.fatal`.  The unbounded call-stack recursion of the
-- Rust code is modelled with an explicit fuel parameter; exhausting it yields
-- the distinguished `Failure.outOfFuel`, and a theorem shows a concrete fuel
-- bound under which it never occurs.

set_option linter.unusedVariables false

namespace CppAmalgamate

-- Model of the hard-coded regexes of src/process.rs (Regexes::new):
--   include:     ^\s*#\s*include\s*(["<][^>"]+[">])\s*$
--   pragma_once: ^\s*#\s*pragma\s+once\s*$
-- Both are unambiguous, so they are modelled as deterministic parsers.

def dropWs (l : List Char) : List Char := l.dropWhile Char.isWhitespace

def stripToken : List Char → List Char → Option (List Char)
  | [], s => some s
  | _ :: _, [] => none
  | c :: cs, d :: ds => if c = d then stripToken cs ds else none

-- Character class [^>"] of the include regex.
def refBodyChar (c : Char) : Bool := c != '>' && c != '"'

-- Returns the text of capture group 1 (delimiters included), if the line
-- matches the include regex.
def includeCapture (line : List Char) : Option (List Char) :=
  match dropWs line with
  | '#' :: r1 =>
    match stripToken "include".toList (dropWs r1) with
    | some r2 =>
      match dropWs r2 with
      | od :: r3 =>
        if od = '"' || od = '<' then
          let body := r3.takeWhile refBodyChar
          match r3.dropWhile refBodyChar with
          | cd :: r4 =>
            if body.isEmpty then none
            else if (cd = '"' || cd = '>') && (dropWs r4).isEmpty then
              some (od :: (body ++ [cd]))
            else none
          | [] => none
        else none
      | [] => none
    | none => none
  | _ => none

def pragmaOnceMatch (line : List Char) : Bool :=
  match dropWs line with
  | '#' :: r1 =>
    match stripToken "pragma".toList (dropWs r1) with
    | some r2 =>
      match r2 with
      | c :: r3 =>
        if c.isWhitespace then
          match stripToken "once".toList (dropWs r3) with
          | some r4 => (dropWs r4).isEmpty
          | none => false
        else false
      | [] => false
    | none => false
  | _ => false

-- ErrorHandling from src/logging.rs.
inductive ErrorHandling where
  | error
  | warn
  | ignore
deriving DecidableEq

-- ErrorHandlingOpts from src/process.rs.
structure ErrorHandlingOpts where
  cyclic_include : ErrorHandling
  unresolvable_quote_include : ErrorHandling
  unresolvable_system_include : ErrorHandling

-- FileState from src/process.rs.
structure FileState where
  canonical_path : String
  included_by : Option Nat
  line_num : Nat
  in_stack : Bool
deriving DecidableEq

-- LineRef from src/process.rs; file_idx = none models EMPTY_STACK_IDX.
structure LineRef where
  file_idx : Option Nat
  num : Nat
deriving DecidableEq

inductive IncludeHandling where
  | inline
  | remove
  | leave
deriving DecidableEq

inductive Failure where
  | fatal (msg : String)
  | bug (msg : String)
  | outOfFuel
deriving DecidableEq

-- Static configuration of one run.  The path resolver (src/resolve.rs) and the
-- compiled glob sets (src/filter.rs) are abstracted as oracle functions; `fs`
-- maps a canonical path to the lines of the file (without newline characters).
structure Config where
  resolveQuote : String → String → Option String
  resolveSystem : String → Option String
  shouldInline : String → Bool → Bool
  opts : ErrorHandlingOpts
  fs : List (String × List String)
  parentDir : String → Option String

-- Mutable state of Processor from src/process.rs; the output writer and the
-- warn-level log are modelled as lists of emitted chunks.
structure ProcState where
  files : List FileState
  known_files : List (String × Nat)
  tail_idx : Option Nat
  expected_line : Option LineRef
  output : List String
  warnings : List String
deriving DecidableEq

def lookupKnown (kf : List (String × Nat)) (p : String) : Option Nat :=
  (kf.find? (fun kv => kv.1 == p)).map Prod.snd

def lookupFS (fs : List (String × List String)) (p : String) : Option (List String) :=
  (fs.find? (fun kv => kv.1 == p)).map Prod.snd

def lineDirective (n : Nat) (path : String) : String :=
  "#line " ++ toString n ++ " \"" ++ path ++ "\""

-- The cycle-reconstruction loop of Processor::push_to_stack: walk included_by
-- links from the stack tail down to the repeated record, collecting paths.
def collectCycleAux (files : List FileState) (target : Nat) :
    Nat → Nat → List String → Except Failure (List String)
  | 0, _, _ => .error (.bug "cycle walk did not terminate")
  | fuel + 1, cur, acc =>
    if cur = target then .ok acc.reverse
    else
      match files[cur]? with
      | none => .error (.bug "index out of bounds")
      | some f =>
        match f.included_by with
        | none => .error (.bug "index out of bounds")
        | some nxt =>
          match files[nxt]? with
          | none => .error (.bug "index out of bounds")
          | some g => collectCycleAux files target fuel nxt (g.canonical_path :: acc)

-- Macro error_handling_handle! from src/logging.rs: Error escalates, Warn logs
-- a warning and continues, Ignore continues with only debug-level tracing
-- (debug/info/trace calls are informational and not modelled).
def errorHandlingHandle (h : ErrorHandling) (msg : String) (s : ProcState) :
    Except Failure ProcState :=
  match h with
  | .error => .error (.fatal msg)
  | .warn => .ok { s with warnings := s.warnings ++ [msg] }
  | .ignore => .ok s

-- The delimiter tests of process_include: starts/ends with a double quote is
-- a quote reference, starts with < and ends with > a system reference, any
-- other capture is a weird include-like statement left untouched.
def refShape (r : List Char) : Option Bool :=
  if r.head? = some '"' && r.getLast? = some '"' then some false
  else if r.head? = some '<' && r.getLast? = some '>' then some true
  else none

-- Processor::push_to_stack from src/process.rs.
def pushToStack (cfg : Config) (s : ProcState) (canonical_path : String) :
    Except Failure (IncludeHandling × ProcState) :=
  match lookupKnown s.known_files canonical_path with
  | none =>
    let idx := s.files.length
    .ok (.inline,
      { s with
        files := s.files ++
          [{ canonical_path := canonical_path, included_by := s.tail_idx,
             line_num := 0, in_stack := true }],
        known_files := (canonical_path, idx) :: s.known_files,
        tail_idx := some idx })
  | some idx =>
    match s.files[idx]? with
    | none => .error (.bug "index out of bounds")
    | some f =>
      if f.in_stack then
        match s.tail_idx with
        | none => .error (.bug "cannot get include cycles with only one file on the stack")
        | some t =>
          match s.files[t]? with
          | none => .error (.bug "index out of bounds")
          | some tf => do
            let cycle ← collectCycleAux s.files idx (s.files.length + 1) t [tf.canonical_path]
            let s' ← errorHandlingHandle cfg.opts.cyclic_include
              ("Cyclic include detected: " ++ String.intercalate " " cycle) s
            .ok (.leave, s')
      else .ok (.remove, s)

-- Processor::output_copied_line from src/process.rs.
def outputCopiedLine (s : ProcState) (line : String) : Except Failure ProcState :=
  match s.expected_line with
  | none => .ok { s with output := s.output ++ [line] }
  | some expected =>
    match s.tail_idx with
    | none => .error (.bug "index out of bounds")
    | some t =>
      match s.files[t]? with
      | none => .error (.bug "index out of bounds")
      | some f =>
        let cur : LineRef := { file_idx := some t, num := f.line_num }
        if cur ≠ expected then
          .ok { s with
            output := s.output ++ [lineDirective f.line_num f.canonical_path, line],
            expected_line := some { file_idx := some t, num := f.line_num + 1 } }
        else
          .ok { s with
            output := s.output ++ [line],
            expected_line := some { file_idx := some t, num := f.line_num + 1 } }

mutual

-- Processor::process_include from src/process.rs; `ref` is the text of capture
-- group 1 and `keep = true` in the result means the include line is kept.
def processInclude (cfg : Config) (fuel : Nat) (s : ProcState) (r : List Char)
    (currentDir : String) : Except Failure (Bool × ProcState) :=
  if r.length < 3 then .error (.bug "include ref too short")
  else
    let inner := String.mk ((r.drop 1).dropLast)
    match refShape r with
    | none => .ok (true, s)
    | some is_system =>
      match (if is_system then cfg.resolveSystem inner
             else cfg.resolveQuote inner currentDir) with
      | some resolved =>
        if cfg.shouldInline resolved is_system then do
          let (h, s1) ← pushToStack cfg s resolved
          match h with
          | .inline => do
            let s2 ← processRecursively cfg fuel s1
            .ok (false, s2)
          | .remove => .ok (false, s1)
          | .leave => .ok (true, s1)
        else .ok (true, s)
      | none =>
        let handling := if is_system then cfg.opts.unresolvable_system_include
                        else cfg.opts.unresolvable_quote_include
        do
          let s' ← errorHandlingHandle handling ("Could not resolve " ++ String.mk r) s
          .ok (true, s')
termination_by (fuel, 1, 0)

-- The read-line loop of Processor::process_recursively together with
-- Processor::process_line from src/process.rs.
def processLines (cfg : Config) (fuel : Nat) (currentDir : String)
    (lines : List String) (s : ProcState) : Except Failure ProcState :=
  match lines with
  | [] => .ok s
  | line :: rest =>
    match s.tail_idx with
    | none => .error (.bug "index out of bounds")
    | some t =>
      match s.files[t]? with
      | none => .error (.bug "index out of bounds")
      | some f =>
        let s1 : ProcState :=
          { s with files := s.files.set t { f with line_num := f.line_num + 1 } }
        if pragmaOnceMatch line.toList then
          processLines cfg fuel currentDir rest s1
        else
          match includeCapture line.toList with
          | some cap => do
            let (keep, s2) ← processInclude cfg fuel s1 cap currentDir
            if keep then do
              let s3 ← outputCopiedLine s2 line
              processLines cfg fuel currentDir rest s3
            else
              processLines cfg fuel currentDir rest s2
          | none => do
            let s3 ← outputCopiedLine s1 line
            processLines cfg fuel currentDir rest s3
termination_by (fuel, 2, lines.length)

-- Processor::process_recursively from src/process.rs.
def processRecursively (cfg : Config) (fuel : Nat) (s : ProcState) :
    Except Failure ProcState :=
  match fuel with
  | 0 => .error .outOfFuel
  | fuel' + 1 =>
    match s.tail_idx with
    | none => .error (.bug "index out of bounds")
    | some t =>
      match s.files[t]? with
      | none => .error (.bug "index out of bounds")
      | some f =>
        match cfg.parentDir f.canonical_path with
        | none => .error (.fatal "Processed file has no parent directory")
        | some currentDir =>
          match lookupFS cfg.fs f.canonical_path with
          | none => .error (.fatal ("Failed to open file " ++ f.canonical_path))
          | some content => do
            let s1 ← processLines cfg fuel' currentDir content s
            match s1.tail_idx with
            | none => .error (.bug "index out of bounds")
            | some t1 =>
              match s1.files[t1]? with
              | none => .error (.bug "index out of bounds")
              | some f1 =>
                .ok { s1 with
                  files := s1.files.set t1 { f1 with in_stack := false },
                  tail_idx := f1.included_by }
termination_by (fuel, 0, 0)

end

-- Processor::process from src/process.rs; the root path is given already
-- canonicalized (Path::canonicalize is part of the abstracted file system).
def process (cfg : Config) (fuel : Nat) (s : ProcState) (canonical_root : String) :
    Except Failure ProcState :=
  match s.tail_idx with
  | some _ => .error (.bug "tail index not empty at start of process")
  | none => do
    let (h, s1) ← pushToStack cfg s canonical_root
    let s2 ← if h = .inline then processRecursively cfg fuel s1 else pure s1
    match s2.tail_idx with
    | some _ => .error (.bug "tail index not empty at end of process")
    | none => .ok s2

-- Processor::new from src/process.rs.
def processorNew (line_directives : Bool) : ProcState :=
  { files := [], known_files := [], tail_idx := none,
    expected_line := if line_directives then some { file_idx := none, num := 0 } else none,
    output := [], warnings := [] }

/-- Modelled from the spec: the command-line driver of the current engine is not
present under src (src/main.rs is the legacy engine), so the run loop is taken
from the spec sentence "one or more root source files, processed sequentially
against one shared dedup/known-files state"; a fatal error aborts the run. -/
def run (cfg : Config) (line_directives : Bool) (fuel : Nat) (roots : List String) :
    Except Failure ProcState :=
  roots.foldlM (fun s r => process cfg fuel s r) (processorNew line_directives)

-- Model of src/filter.rs.  Compiled glob semantics (the globset crate) are
-- abstracted as a match oracle m : pattern string → path → Bool; GlobInfo
-- mirrors the struct of the same name (pattern text plus polarity).

structure GlobInfo where
  str : String
  inverted : Bool
deriving DecidableEq

-- InvertibleGlob::from_str from src/filter.rs: a leading exclamation mark
-- marks the glob as inverted and is stripped from the pattern.
def invertibleGlobFromStr (s : String) : GlobInfo :=
  if s.startsWith "!" then { str := s.drop 1, inverted := true }
  else { str := s, inverted := false }

-- GlobSet::matches_candidate_into: the sequence numbers of every matching
-- pattern, in ascending order.
def matchIndicesFrom (m : String → String → Bool) (path : String) :
    Nat → List GlobInfo → List Nat
  | _, [] => []
  | i, g :: gs =>
    if m g.str path then i :: matchIndicesFrom m path (i + 1) gs
    else matchIndicesFrom m path (i + 1) gs

def matchesCandidateInto (m : String → String → Bool) (infos : List GlobInfo)
    (path : String) : List Nat :=
  matchIndicesFrom m path 0 infos

-- check_should_inline from src/filter.rs: the last matching glob wins; its
-- polarity decides; no match defaults to inlining.
def check_should_inline (m : String → String → Bool) (path : String)
    (infos : List GlobInfo) : Bool :=
  match (matchesCandidateInto m infos path).getLast? with
  | some idx => ((infos[idx]?).map GlobInfo.inverted).getD true
  | none => true

-- Opts::merge_by_cli_order from src/cli.rs: itertools merge_by on the pairs
-- (original command-line index, value), taking from the first list while its
-- index is smaller.
def mergeByCliOrder {α : Type} : List (Nat × α) → List (Nat × α) → List (Nat × α)
  | [], ys => ys
  | x :: xs, [] => x :: xs
  | x :: xs, y :: ys =>
    if x.1 < y.1 then x :: mergeByCliOrder xs (y :: ys)
    else y :: mergeByCliOrder (x :: xs) ys
termination_by xs ys => xs.length + ys.length

-- Formalisation of the spec sentence for the filter decision: among all globs
-- that match, the last one in merged order wins; its polarity decides; if no
-- glob matches, the default is to inline.
def lastMatchDecision (m : String → String → Bool) (path : String)
    (infos : List GlobInfo) : Bool :=
  match infos.reverse.find? (fun g => m g.str path) with
  | some g => g.inverted
  | none => true

namespace V1

-- Shallow embedding of the legacy engine in src/main.rs.  Only quote includes
-- exist there, resolution failures are fatal, and the engine owns blank-line
-- trimming and the begin/end comment templates.

structure Opts where
  trim_blank : Bool
  line_directives : Bool
  file_begin_comment : Option String
  file_end_comment : Option String

-- find_included_file and path canonicalization abstracted: the oracle maps an
-- include path and the current directory to (canonical path, display path).
structure Cfg where
  fs : List (String × List String)
  resolve : String → String → Option (String × String)
  parentDir : String → Option String

inductive PState where
  | inStack (idx : Nat)
  | done
deriving DecidableEq

structure FileSt where
  canonical_path : String
  display_path : String
  has_written : Bool
deriving DecidableEq

structure St where
  known_files : List (String × PState)
  stack : List FileSt
  current : FileSt
  next_line : Nat × Nat
  output : List String
deriving DecidableEq

def lookupPS (kf : List (String × PState)) (p : String) : Option PState :=
  (kf.find? (fun kv => kv.1 == p)).map Prod.snd

def insertPS : List (String × PState) → String → PState → List (String × PState)
  | [], p, st => [(p, st)]
  | (q, v) :: rest, p, st =>
    if q == p then (q, st) :: rest else (q, v) :: insertPS rest p st

-- Processor::expand_comment_template from src/main.rs.
def expandCommentTemplate (tpl : String) (f : FileSt) : String :=
  (tpl.replace "\x7brelative\x7d" f.display_path).replace "\x7babsolute\x7d" f.canonical_path

-- Processor::emit_line from src/main.rs.
def emitLine (o : Opts) (s : St) (line : String) (line_num : Nat) : St :=
  let s1 :=
    if !s.current.has_written && !s.stack.isEmpty then
      match o.file_begin_comment with
      | some tpl => { s with output := s.output ++ [expandCommentTemplate tpl s.current] }
      | none => s
    else s
  let file_idx := s1.stack.length
  let s2 :=
    if decide (s1.next_line ≠ (file_idx, line_num)) && o.line_directives then
      { s1 with output := s1.output ++ [lineDirective line_num s1.current.canonical_path] }
    else s1
  let s3 := { s2 with next_line := (file_idx, line_num + 1) }
  { s3 with output := s3.output ++ [line],
            current := { s3.current with has_written := true } }

-- Processor::emit_blank_lines from src/main.rs (the caller's vector is
-- drained, which the callers below model by continuing with an empty list).
def emitBlankLines (o : Opts) (s : St) (ls : List (String × Nat)) : St :=
  ls.foldl (fun acc ln => emitLine o acc ln.1 ln.2) s

def trimEndChars (l : List Char) : List Char :=
  (l.reverse.dropWhile Char.isWhitespace).reverse

-- The include regex of src/main.rs: ^\s*#\s*include\s*"([^"]+)"\s*$ (quote
-- form only; the capture is the inner path without delimiters).
def v1IncludeCapture (line : List Char) : Option (List Char) :=
  match dropWs line with
  | '#' :: r1 =>
    match stripToken "include".toList (dropWs r1) with
    | some r2 =>
      match dropWs r2 with
      | '"' :: r3 =>
        let body := r3.takeWhile (fun c => c != '"')
        match r3.dropWhile (fun c => c != '"') with
        | '"' :: r4 =>
          if body.isEmpty then none
          else if (dropWs r4).isEmpty then some body else none
        | _ => none
      | _ => none
    | none => none
  | _ => none

mutual

-- The read-line loop of Processor::process from src/main.rs; deferred is the
-- local deferred_blank_lines vector, line_num the local line counter.
def v1ProcessLines (o : Opts) (cfg : Cfg) (fuel : Nat) (current_dir : String) :
    List String → Nat → List (String × Nat) → St → Except Failure St
  | [], _, deferred, s =>
    let s1 := if !o.trim_blank then emitBlankLines o s deferred else s
    let s2 :=
      if s1.current.has_written && !s1.stack.isEmpty then
        match o.file_end_comment with
        | some tpl => { s1 with output := s1.output ++ [expandCommentTemplate tpl s1.current] }
        | none => s1
      else s1
    .ok s2
  | line :: rest, line_num, deferred, s =>
    let ln := line_num + 1
    let trimmed := trimEndChars line.toList
    if trimmed.isEmpty && o.trim_blank then
      v1ProcessLines o cfg fuel current_dir rest ln (deferred ++ [(line, ln)]) s
    else if pragmaOnceMatch trimmed then
      v1ProcessLines o cfg fuel current_dir rest ln deferred s
    else
      match v1IncludeCapture trimmed with
      | some pathChars =>
        let path := String.mk pathChars
        match cfg.resolve path current_dir with
        | none => .error (.fatal ("included file \"" ++ path ++ "\" not found"))
        | some (canonical, display) =>
          match lookupPS s.known_files canonical with
          | some (.inStack _) => .error (.fatal "cyclic include detected")
          | some .done =>
            v1ProcessLines o cfg fuel current_dir rest ln deferred s
          | none =>
            let s1 := { s with known_files := insertPS s.known_files canonical (.inStack s.stack.length) }
            let flushed := !o.trim_blank || s1.current.has_written
            let s2 := if flushed then emitBlankLines o s1 deferred else s1
            let deferred1 : List (String × Nat) := if flushed then [] else deferred
            let s3 := { s2 with stack := s2.stack ++ [s2.current],
                                current := { canonical_path := canonical,
                                             display_path := display,
                                             has_written := false } }
            do
              let s4 ← v1Process o cfg fuel s3
              match s4.stack.getLast? with
              | none => .error (.bug "empty processed file stack")
              | some parent =>
                let sub := s4.current
                let s5 := { s4 with stack := s4.stack.dropLast, current := parent }
                let deferred2 := if sub.has_written then [] else deferred1
                let s6 := { s5 with known_files := insertPS s5.known_files sub.canonical_path .done }
                v1ProcessLines o cfg fuel current_dir rest ln deferred2 s6
      | none =>
        let dropLeading := o.trim_blank && !s.current.has_written
        let s1 := if dropLeading then s else emitBlankLines o s deferred
        let s2 := emitLine o s1 line ln
        v1ProcessLines o cfg fuel current_dir rest ln [] s2
termination_by lines _ _ _ => (fuel, 1, lines.length)

-- Processor::process from src/main.rs.
def v1Process (o : Opts) (cfg : Cfg) (fuel : Nat) (s : St) : Except Failure St :=
  match fuel with
  | 0 => .error .outOfFuel
  | fuel' + 1 =>
    match cfg.parentDir s.current.canonical_path with
    | none => .error (.fatal "processed file has no parent directory")
    | some current_dir =>
      match lookupFS cfg.fs s.current.canonical_path with
      | none => .error (.fatal ("failed to open included file \"" ++ s.current.display_path ++ "\""))
      | some content => v1ProcessLines o cfg fuel' current_dir content 0 [] s
termination_by (fuel, 0, 0)

end

-- Processor::new plus process_file from src/main.rs; the root path is given
-- already canonicalized, its display path is the path as typed.
def v1Run (o : Opts) (cfg : Cfg) (fuel : Nat) (rootCanonical rootDisplay : String) :
    Except Failure St :=
  v1Process o cfg fuel
    { known_files := [(rootCanonical, .inStack 0)],
      stack := [],
      current := { canonical_path := rootCanonical, display_path := rootDisplay,
                   has_written := false },
      next_line := (0, 1),
      output := [] }

end V1

-- Derived classification of a line, read off process_line + process_include:
-- some (false, X) when the line is treated as a quote include reference with
-- inner text X, some (true, X) for a system reference; none when the line is
-- not treated as a reference at all (no regex match, or mismatched delimiters
-- in the capture, which process_include keeps verbatim).
def lineIncludeClass (line : List Char) : Option (Bool × List Char) :=
  match includeCapture line with
  | none => none
  | some cap => (refShape cap).map (fun b => (b, (cap.drop 1).dropLast))

def IsWsList (l : List Char) : Prop := ∀ c ∈ l, c.isWhitespace = true

-- Grammar of the spec sentence for a quote include, as claimed: optional
-- whitespace, '#', optional whitespace, the word include, optional whitespace,
-- then "X" with X any sequence not containing a double quote, then optional
-- whitespace.  (The claim places no other restriction on X.)
def ClaimQuoteRef (line : List Char) : Prop :=
  ∃ w1 w2 w3 X w4,
    line = w1 ++ ['#'] ++ w2 ++ "include".toList ++ w3 ++ ['"'] ++ X ++ ['"'] ++ w4 ∧
    IsWsList w1 ∧ IsWsList w2 ∧ IsWsList w3 ∧ IsWsList w4 ∧
    (∀ c ∈ X, c ≠ '"')

-- Grammar of the spec sentence for a system include, as claimed: the same
-- shape with <X> delimiters and X containing neither < nor >.
def ClaimSystemRef (line : List Char) : Prop :=
  ∃ w1 w2 w3 X w4,
    line = w1 ++ ['#'] ++ w2 ++ "include".toList ++ w3 ++ ['<'] ++ X ++ ['>'] ++ w4 ∧
    IsWsList w1 ∧ IsWsList w2 ∧ IsWsList w3 ∧ IsWsList w4 ∧
    (∀ c ∈ X, c ≠ '<' ∧ c ≠ '>')

-- The grammar the code actually implements for a quote reference: X must be
-- nonempty and may contain neither a double quote nor a closing angle bracket.
def CodeQuoteRef (line : List Char) : Prop :=
  ∃ w1 w2 w3 X w4,
    line = w1 ++ ['#'] ++ w2 ++ "include".toList ++ w3 ++ ['"'] ++ X ++ ['"'] ++ w4 ∧
    IsWsList w1 ∧ IsWsList w2 ∧ IsWsList w3 ∧ IsWsList w4 ∧
    X ≠ [] ∧ (∀ c ∈ X, c ≠ '"' ∧ c ≠ '>')

-- The grammar the code actually implements for a system reference: X must be
-- nonempty and may contain neither a double quote nor a closing angle bracket
-- (an opening angle bracket inside X is accepted).
def CodeSystemRef (line : List Char) : Prop :=
  ∃ w1 w2 w3 X w4,
    line = w1 ++ ['#'] ++ w2 ++ "include".toList ++ w3 ++ ['<'] ++ X ++ ['>'] ++ w4 ∧
    IsWsList w1 ∧ IsWsList w2 ∧ IsWsList w3 ∧ IsWsList w4 ∧
    X ≠ [] ∧ (∀ c ∈ X, c ≠ '"' ∧ c ≠ '>')

-- Full characterisation of a successful match of the include regex: the line
-- decomposes into whitespace runs, the tokens, a delimiter pair from the
-- classes ["<] / [">] and a nonempty body over [^>"].
def CaptureDecomp (line cap : List Char) : Prop :=
  ∃ w1 w2 w3 od body cd w4,
    line = w1 ++ ['#'] ++ w2 ++ "include".toList ++ w3 ++ [od] ++ body ++ [cd] ++ w4 ∧
    IsWsList w1 ∧ IsWsList w2 ∧ IsWsList w3 ∧ IsWsList w4 ∧
    (od = '"' ∨ od = '<') ∧ (cd = '"' ∨ cd = '>') ∧ body ≠ [] ∧
    (∀ c ∈ body, c ≠ '"' ∧ c ≠ '>') ∧
    cap = od :: body ++ [cd]

-- Ancestor relation induced by the included_by back-links: Ancestor files i k
-- holds when k is reachable from i (k = i included).
inductive Ancestor (files : List FileState) : Nat → Nat → Prop where
  | refl (i : Nat) : Ancestor files i i
  | step {i j k : Nat} {f : FileState} : files[i]? = some f → f.included_by = some j →
      Ancestor files j k → Ancestor files i k

-- Back-links always point to strictly smaller indices (a record's parent was
-- created before it).
def InclLt (files : List FileState) : Prop :=
  ∀ (i : Nat) (f : FileState) (j : Nat), files[i]? = some f → f.included_by = some j → j < i

-- Well-formedness invariant of the processor state: known_files is a
-- bijection between canonical paths and record indices, back-links decrease,
-- the tail is a valid index, and the records with in_stack = true are exactly
-- the ancestors of the tail.
structure WF (s : ProcState) : Prop where
  keysNodup : (s.known_files.map Prod.fst).Nodup
  knownSound : ∀ p i, (p, i) ∈ s.known_files → ∃ f, s.files[i]? = some f ∧ f.canonical_path = p
  filesKnown : ∀ i f, s.files[i]? = some f → (f.canonical_path, i) ∈ s.known_files
  inclLt : InclLt s.files
  tailLt : ∀ t, s.tail_idx = some t → t < s.files.length
  stackChar : ∀ i f, s.files[i]? = some f →
    (f.in_stack = true ↔ ∃ t, s.tail_idx = some t ∧ Ancestor s.files t i)

-- Bindings already present in known_files are never changed or removed.
def KnownMono (s s' : ProcState) : Prop :=
  ∀ p i, lookupKnown s.known_files p = some i → lookupKnown s'.known_files p = some i

-- Number of file-system entries not yet recorded in known_files; the measure
-- that bounds the recursion depth of the traversal.
def unvisitedCount (cfg : Config) (s : ProcState) : Nat :=
  ((cfg.fs.map Prod.fst).filter (fun p => (lookupKnown s.known_files p).isNone)).length

-- Postconditions of the three mutually recursive traversal functions on
-- well-formed states, used by the main invariant proof.

-- After processing the file at the tail: the tail is popped to its parent,
-- records other than the tail are untouched, the tail record keeps its
-- identity fields and leaves the stack, and new records are appended.
def RecEnsures (s s' : ProcState) : Prop :=
  WF s' ∧ KnownMono s s' ∧ s.files.length ≤ s'.files.length ∧
  ∃ t ft, s.tail_idx = some t ∧ s.files[t]? = some ft ∧
    s'.tail_idx = ft.included_by ∧
    (∀ i, i < s.files.length → i ≠ t → s'.files[i]? = s.files[i]?) ∧
    ∃ n, s'.files[t]? = some { ft with line_num := n, in_stack := false }

-- After the read-line loop: the tail is unchanged, records other than the
-- tail are untouched, and the tail record changes only its line counter.
def LinesEnsures (s s' : ProcState) : Prop :=
  WF s' ∧ KnownMono s s' ∧ s.files.length ≤ s'.files.length ∧
  s'.tail_idx = s.tail_idx ∧
  (∀ i, i < s.files.length → s.tail_idx ≠ some i → s'.files[i]? = s.files[i]?) ∧
  (∀ t ft, s.tail_idx = some t → s.files[t]? = some ft →
    ∃ n, s'.files[t]? = some { ft with line_num := n })

-- After one include directive: the tail is unchanged and every record that
-- already existed is untouched (a nested visit only creates and finishes new
-- records).
def IncEnsures (s s' : ProcState) : Prop :=
  WF s' ∧ KnownMono s s' ∧ s.files.length ≤ s'.files.length ∧
  s'.tail_idx = s.tail_idx ∧
  (∀ i, i < s.files.length → s'.files[i]? = s.files[i]?)

-- The three statements proved simultaneously by induction on fuel.

def RecHolds (cfg : Config) (fuel : Nat) : Prop :=
  ∀ s, WF s → s.tail_idx.isSome →
    (∀ m, processRecursively cfg fuel s ≠ .error (.bug m)) ∧
    (∀ s', processRecursively cfg fuel s = .ok s' → RecEnsures s s')

def LinesHolds (cfg : Config) (fuel : Nat) : Prop :=
  ∀ dir lines s, WF s → s.tail_idx.isSome →
    (∀ m, processLines cfg fuel dir lines s ≠ .error (.bug m)) ∧
    (∀ s', processLines cfg fuel dir lines s = .ok s' → LinesEnsures s s')

def IncHolds (cfg : Config) (fuel : Nat) : Prop :=
  ∀ s (r : List Char) dir, WF s → 3 ≤ r.length →
    (∀ m, processInclude cfg fuel s r dir ≠ .error (.bug m)) ∧
    (∀ b s', processInclude cfg fuel s r dir = .ok (b, s') → IncEnsures s s')

-- Fuel-sufficiency statements: with enough fuel relative to the number of
-- unvisited file-system entries, the traversal never runs out of fuel (this
-- models termination of the Rust recursion).

def RecFuel (cfg : Config) (fuel : Nat) : Prop :=
  ∀ s, WF s → unvisitedCount cfg s + 2 ≤ fuel →
    processRecursively cfg fuel s ≠ .error .outOfFuel

def LinesFuel (cfg : Config) (fuel : Nat) : Prop :=
  ∀ dir lines s, WF s → unvisitedCount cfg s + 1 ≤ fuel →
    processLines cfg fuel dir lines s ≠ .error .outOfFuel

def IncFuel (cfg : Config) (fuel : Nat) : Prop :=
  ∀ s (r : List Char) dir, WF s → 3 ≤ r.length → unvisitedCount cfg s + 1 ≤ fuel →
    processInclude cfg fuel s r dir ≠ .error .outOfFuel

-- Concrete configurations and states for closed instances of the theorems
-- below (they mirror the repository's integration tests in tests/inlining.rs).

-- The file system of the cyclic_includes test: the root includes a, a
-- includes b, and b includes a again.
def cfgCyc (h : ErrorHandling) : Config :=
  { resolveQuote := fun _ _ => none,
    resolveSystem := fun p =>
      if p = "a.hpp" then some "/d/a.hpp"
      else if p = "b.hpp" then some "/d/b.hpp" else none,
    shouldInline := fun _ _ => true,
    opts := { cyclic_include := h, unresolvable_quote_include := .ignore,
              unresolvable_system_include := .ignore },
    fs := [("/r/root.cpp", ["#include <a.hpp>"]),
           ("/d/a.hpp", ["#include <b.hpp>"]),
           ("/d/b.hpp", ["#include <a.hpp>"])],
    parentDir := fun p => if p = "/r/root.cpp" then some "/r" else some "/d" }

-- The file system of the include_headers_at_most_once test: b is included
-- twice, once through a.
def cfgOnce : Config :=
  { resolveQuote := fun _ _ => none,
    resolveSystem := fun p =>
      if p = "a.hpp" then some "/d/a.hpp"
      else if p = "b.hpp" then some "/d/b.hpp" else none,
    shouldInline := fun _ _ => true,
    opts := { cyclic_include := .error, unresolvable_quote_include := .error,
              unresolvable_system_include := .error },
    fs := [("/r/root.cpp", ["#include <a.hpp>", "#include <b.hpp>"]),
           ("/d/a.hpp", ["#include <b.hpp>"]),
           ("/d/b.hpp", ["arst"])],
    parentDir := fun p => if p = "/r/root.cpp" then some "/r" else some "/d" }

-- A configuration in which no include resolves.
def cfgNoRes : Config :=
  { resolveQuote := fun _ _ => none,
    resolveSystem := fun _ => none,
    shouldInline := fun _ _ => true,
    opts := { cyclic_include := .error, unresolvable_quote_include := .warn,
              unresolvable_system_include := .warn },
    fs := [],
    parentDir := fun _ => some "/r" }

-- A state in which the root file is on the traversal stack (as after
-- push_to_stack on a fresh processor).
def exStC : ProcState :=
  { files := [{ canonical_path := "/r/root.cpp", included_by := none,
                line_num := 1, in_stack := true }],
    known_files := [("/r/root.cpp", 0)],
    tail_idx := some 0,
    expected_line := none, output := [], warnings := [] }

-- A state with line directives enabled, mid-file.
def exSt7 : ProcState :=
  { files := [{ canonical_path := "/d/a.hpp", included_by := none,
                line_num := 3, in_stack := true }],
    known_files := [("/d/a.hpp", 0)],
    tail_idx := some 0,
    expected_line := some { file_idx := some 0, num := 7 },
    output := [], warnings := [] }

-- Legacy-engine options with blank-line trimming on and everything else off.
def oTrim : V1.Opts :=
  { trim_blank := true, line_directives := false,
    file_begin_comment := none, file_end_comment := none }

-- Legacy-engine file system: the root includes a.h on its first line, then a
-- blank line, then a non-blank line.
def cfg6 : V1.Cfg :=
  { fs := [("/r/main.cpp", ["#include \"a.h\"", "", "x"]),
           ("/r/a.h", ["qwfp"])],
    resolve := fun p _ => if p = "a.h" then some ("/r/a.h", "a.h") else none,
    parentDir := fun _ => some "/r" }

-- Basic lemmas about the association-list lookups.

theorem lookupKnown_cons (q : String) (j : Nat) (kf : List (String × Nat)) (p : String) :
    lookupKnown ((q, j) :: kf) p = if q == p then some j else lookupKnown kf p := by
  by_cases h : q == p <;> simp [lookupKnown, List.find?_cons, h]

theorem lookupKnown_some_mem {kf : List (String × Nat)} {p : String} {i : Nat}
    (h : lookupKnown kf p = some i) : (p, i) ∈ kf := by
  unfold lookupKnown at h
  cases hf : kf.find? (fun kv => kv.1 == p) with
  | none => simp [hf] at h
  | some kv =>
    simp [hf] at h
    have hp := List.find?_some hf
    have hm := List.mem_of_find?_eq_some hf
    have : kv.1 = p := by simpa using hp
    have : kv = (p, i) := by
      cases kv
      simp_all
    rw [this] at hm
    exact hm

theorem mem_lookupKnown_isSome {kf : List (String × Nat)} {p : String} {i : Nat}
    (h : (p, i) ∈ kf) : (lookupKnown kf p).isSome := by
  unfold lookupKnown
  cases hf : kf.find? (fun kv => kv.1 == p) with
  | none =>
    have := List.find?_eq_none.mp hf _ h
    simp at this
  | some kv => simp

theorem lookupKnown_none_not_mem {kf : List (String × Nat)} {p : String} {i : Nat}
    (h : lookupKnown kf p = none) : (p, i) ∉ kf := by
  intro hmem
  have := mem_lookupKnown_isSome hmem
  simp [h] at this

theorem lookupFS_none_of_not_mem {fs : List (String × List String)} {p : String}
    (h : p ∉ fs.map Prod.fst) : lookupFS fs p = none := by
  unfold lookupFS
  cases hf : fs.find? (fun kv => kv.1 == p) with
  | none => simp
  | some kv =>
    exfalso
    have hp := List.find?_some hf
    have hm := List.mem_of_find?_eq_some hf
    have : kv.1 = p := by simpa using hp
    exact h (this ▸ List.mem_map_of_mem Prod.fst hm)

-- Basic lemmas about the Ancestor relation.

theorem getElem?_lt_length {α : Type} {l : List α} {i : Nat} {a : α}
    (h : l[i]? = some a) : i < l.length := by
  rcases List.getElem?_eq_some_iff.mp h with ⟨h1, _⟩
  exact h1

theorem Ancestor.le {files : List FileState} (hlt : InclLt files) {a b : Nat}
    (h : Ancestor files a b) : b ≤ a := by
  induction h with
  | refl => exact Nat.le_refl _
  | step hf hincl _ ih => exact Nat.le_trans ih (Nat.le_of_lt (hlt _ _ _ hf hincl))

theorem ancestor_cases {files : List FileState} {a b : Nat} (h : Ancestor files a b) :
    a = b ∨ ∃ (f : FileState) (j : Nat),
      files[a]? = some f ∧ f.included_by = some j ∧ Ancestor files j b := by
  cases h with
  | refl => exact Or.inl rfl
  | step hf hincl h' => exact Or.inr ⟨_, _, hf, hincl, h'⟩

theorem ancestor_of_append (files l2 : List FileState) {a b : Nat}
    (h : Ancestor files a b) : Ancestor (files ++ l2) a b := by
  induction h with
  | refl => exact Ancestor.refl _
  | step hf hincl _ ih =>
    have hlen := getElem?_lt_length hf
    exact Ancestor.step (by rw [List.getElem?_append_left hlen]; exact hf) hincl ih

theorem ancestor_append_elim {files l2 : List FileState} {a b : Nat}
    (hlt : InclLt files)
    (h : Ancestor (files ++ l2) a b) : a < files.length → Ancestor files a b := by
  induction h with
  | refl => exact fun _ => Ancestor.refl _
  | @step i j k f hf hincl _ ih =>
    intro ha
    have hfi : files[i]? = some f := by
      rwa [List.getElem?_append_left ha] at hf
    have hj : j < files.length := Nat.lt_trans (hlt _ _ _ hfi hincl) ha
    exact Ancestor.step hfi hincl (ih hj)

theorem ancestor_set_iff {files : List FileState} {t : Nat} {g f : FileState}
    (hf : files[t]? = some f) (hincl : g.included_by = f.included_by)
    {a b : Nat} : Ancestor (files.set t g) a b ↔ Ancestor files a b := by
  have htlen : t < files.length := getElem?_lt_length hf
  constructor
  · intro h
    induction h with
    | refl => exact Ancestor.refl _
    | @step i j k f' hf' hincl' _ ih =>
      by_cases hit : i = t
      · subst hit
        rw [List.getElem?_set] at hf'
        simp [htlen] at hf'
        subst hf'
        rw [hincl] at hincl'
        exact Ancestor.step hf hincl' ih
      · rw [List.getElem?_set_ne (fun he => hit he.symm)] at hf'
        exact Ancestor.step hf' hincl' ih
  · intro h
    induction h with
    | refl => exact Ancestor.refl _
    | @step i j k f' hf' hincl' _ ih =>
      by_cases hit : i = t
      · subst hit
        rw [hf] at hf'
        cases hf'
        refine Ancestor.step (f := g) ?_ ?_ ih
        · rw [List.getElem?_set]
          simp [htlen]
        · rw [hincl]
          exact hincl'
      · refine Ancestor.step (f := f') ?_ hincl' ih
        rw [List.getElem?_set_ne (fun he => hit he.symm)]
        exact hf'

theorem lookupKnown_none_key_not_mem {kf : List (String × Nat)} {p : String}
    (h : lookupKnown kf p = none) : p ∉ kf.map Prod.fst := by
  intro hmem
  rcases List.mem_map.mp hmem with ⟨kv, hkv, hfst⟩
  have : (p, kv.2) ∈ kf := by
    cases kv
    simp at hfst
    simpa [hfst] using hkv
  exact lookupKnown_none_not_mem h this

theorem getElem?_concat_cases {α : Type} {l : List α} {x : α} {i : Nat} {f : α}
    (h : (l ++ [x])[i]? = some f) :
    (i < l.length ∧ l[i]? = some f) ∨ (i = l.length ∧ f = x) := by
  have hi : i < l.length + 1 := by
    have := getElem?_lt_length h
    simpa using this
  by_cases hil : i < l.length
  · rw [List.getElem?_append_left hil] at h
    exact Or.inl ⟨hil, h⟩
  · have : i = l.length := by omega
    subst this
    rw [List.getElem?_concat_length] at h
    cases h
    exact Or.inr ⟨rfl, rfl⟩

-- If the walk target is an ancestor of the walk start, the cycle
-- reconstruction of push_to_stack succeeds within files.length + 1 steps.
theorem collectCycleAux_ok {files : List FileState} (hlt : InclLt files) {a b : Nat}
    (h : Ancestor files a b) : ∀ (acc : List String) (fuel : Nat), a + 1 ≤ fuel →
    ∃ res, collectCycleAux files b fuel a acc = .ok res := by
  induction h with
  | refl i =>
    intro acc fuel hfuel
    match fuel, hfuel with
    | fuel + 1, _ => exact ⟨acc.reverse, by simp [collectCycleAux]⟩
  | @step i j k f hf hincl h' ih =>
    intro acc fuel hfuel
    match fuel, hfuel with
    | fuel + 1, hfuel =>
      by_cases hib : i = k
      · exact ⟨acc.reverse, by simp [collectCycleAux, hib]⟩
      · have hj : j < i := hlt _ _ _ hf hincl
        have hjlen : j < files.length := Nat.lt_trans hj (getElem?_lt_length hf)
        obtain ⟨g, hg⟩ : ∃ g, files[j]? = some g :=
          ⟨files[j], List.getElem?_eq_getElem hjlen⟩
        obtain ⟨res, hres⟩ := ih (g.canonical_path :: acc) fuel (by omega)
        exact ⟨res, by simp [collectCycleAux, hib, hf, hincl, hg, hres]⟩

-- Well-formedness only depends on the record list, the known-files map and
-- the tail index.
theorem WF.congr {s s' : ProcState} (h : WF s) (hf : s'.files = s.files)
    (hk : s'.known_files = s.known_files) (ht : s'.tail_idx = s.tail_idx) : WF s' :=
  ⟨hk ▸ h.keysNodup, by rw [hk, hf]; exact h.knownSound, by rw [hk, hf]; exact h.filesKnown,
   hf ▸ h.inclLt, by rw [ht, hf]; exact h.tailLt, by rw [hf, ht]; exact h.stackChar⟩

-- Full behavioural specification of push_to_stack on well-formed states: it
-- never panics, preserves well-formedness, and either enters a fresh record
-- (inline) or leaves the record list untouched.
theorem pushToStack_spec (cfg : Config) (s : ProcState) (p : String) (hwf : WF s) :
    (∀ m, pushToStack cfg s p ≠ .error (.bug m)) ∧
    (∀ h s', pushToStack cfg s p = .ok (h, s') →
      WF s' ∧ KnownMono s s' ∧ s.files.length ≤ s'.files.length ∧
      s'.expected_line = s.expected_line ∧ s'.output = s.output ∧
      ((h = .inline ∧ lookupKnown s.known_files p = none ∧
          s'.tail_idx = some s.files.length ∧
          s'.known_files = (p, s.files.length) :: s.known_files ∧
          s'.files = s.files ++
            [{ canonical_path := p, included_by := s.tail_idx,
               line_num := 0, in_stack := true }] ∧
          s'.warnings = s.warnings) ∨
        (h ≠ .inline ∧ s'.tail_idx = s.tail_idx ∧ s'.files = s.files ∧
          s'.known_files = s.known_files))) := by
  cases hlook : lookupKnown s.known_files p with
  | none =>
    constructor
    · intro m
      simp [pushToStack, hlook]
    · intro h s' hok
      simp [pushToStack, hlook] at hok
      obtain ⟨hh, hs'⟩ := hok
      subst hh
      subst hs'
      set nf : FileState :=
        { canonical_path := p, included_by := s.tail_idx, line_num := 0, in_stack := true }
        with hnf
      have hkeys : p ∉ s.known_files.map Prod.fst := lookupKnown_none_key_not_mem hlook
      have hwfnew : WF
          { s with files := s.files ++ [nf],
                   known_files := (p, s.files.length) :: s.known_files,
                   tail_idx := some s.files.length } := by
        have hinclLt' : InclLt (s.files ++ [nf]) := by
          intro i f j hf hincl
          rcases getElem?_concat_cases hf with ⟨hil, hfi⟩ | ⟨hil, hfx⟩
          · exact hwf.inclLt _ _ _ hfi hincl
          · subst hil
            subst hfx
            simp [hnf] at hincl
            exact hwf.tailLt _ hincl
        refine ⟨?_, ?_, ?_, hinclLt', ?_, ?_⟩
        · have hmapeq : (((p, s.files.length) :: s.known_files).map Prod.fst) =
              p :: s.known_files.map Prod.fst := rfl
          rw [hmapeq]
          exact List.nodup_cons.mpr ⟨hkeys, hwf.keysNodup⟩
        · intro q i hq
          simp at hq
          rcases hq with ⟨hq, hi⟩ | hq
          · subst hq
            subst hi
            exact ⟨nf, by simpa using List.getElem?_concat_length _ _, rfl⟩
          · obtain ⟨f, hf, hfp⟩ := hwf.knownSound _ _ hq
            exact ⟨f, by rw [List.getElem?_append_left (getElem?_lt_length hf)]; exact hf, hfp⟩
        · intro i f hf
          rcases getElem?_concat_cases hf with ⟨hil, hfi⟩ | ⟨hil, hfx⟩
          · exact List.mem_cons_of_mem _ (hwf.filesKnown _ _ hfi)
          · subst hil
            subst hfx
            simp [hnf]
        · intro t ht
          simp at ht
          subst ht
          simp
        · intro i f hf
          rcases getElem?_concat_cases hf with ⟨hil, hfi⟩ | ⟨hil, hfx⟩
          · rw [hwf.stackChar _ _ hfi]
            constructor
            · rintro ⟨t0, ht0, hanc⟩
              refine ⟨s.files.length, rfl,
                Ancestor.step (f := nf) (j := t0) ?_ ?_ (ancestor_of_append _ _ hanc)⟩
              · simpa using List.getElem?_concat_length _ _
              · simp [hnf, ht0]
            · rintro ⟨t, ht, hanc⟩
              simp at ht
              subst ht
              rcases ancestor_cases hanc with hii | ⟨f', j, hf', hincl', hanc'⟩
              · omega
              · rw [show ((s.files ++ [nf])[s.files.length]? : Option FileState) = some nf from
                  by simpa using List.getElem?_concat_length _ _] at hf'
                cases hf'
                simp [hnf] at hincl'
                have hjlt : j < s.files.length := hwf.tailLt _ hincl'
                exact ⟨j, hincl', ancestor_append_elim hwf.inclLt hanc' hjlt⟩
          · subst hil
            subst hfx
            constructor
            · intro _
              exact ⟨s.files.length, rfl, Ancestor.refl _⟩
            · intro _
              rfl
      refine ⟨hwfnew, ?_, by simp, rfl, rfl, Or.inl ⟨rfl, rfl, rfl, rfl, rfl, rfl⟩⟩
      · intro q i hq
        have hqp : (p == q) = false := by
          by_cases hqe : p = q
          · subst hqe
            rw [hlook] at hq
            cases hq
          · simp [hqe]
        simpa [lookupKnown_cons, hqp] using hq
  | some idx =>
    obtain ⟨f, hfidx, hfp⟩ := hwf.knownSound _ _ (lookupKnown_some_mem hlook)
    by_cases hin : f.in_stack = true
    · obtain ⟨t, ht, hanc⟩ := (hwf.stackChar _ _ hfidx).mp hin
      have htlen : t < s.files.length := hwf.tailLt _ ht
      obtain ⟨tf, htf⟩ : ∃ tf, s.files[t]? = some tf :=
        ⟨s.files[t], List.getElem?_eq_getElem htlen⟩
      obtain ⟨cycle, hcycle⟩ :=
        collectCycleAux_ok hwf.inclLt hanc [tf.canonical_path] (s.files.length + 1)
          (by omega)
      cases hcy : cfg.opts.cyclic_include with
      | error =>
        constructor
        · intro m
          simp [pushToStack, hlook, hfidx, hin, ht, htf, hcycle, errorHandlingHandle, hcy, Except.bind, bind]
        · intro h s' hok
          simp [pushToStack, hlook, hfidx, hin, ht, htf, hcycle, errorHandlingHandle, hcy, Except.bind, bind] at hok
      | warn =>
        constructor
        · intro m
          simp [pushToStack, hlook, hfidx, hin, ht, htf, hcycle, errorHandlingHandle, hcy, Except.bind, bind]
        · intro h s' hok
          simp [pushToStack, hlook, hfidx, hin, ht, htf, hcycle, errorHandlingHandle, hcy, Except.bind, bind] at hok
          obtain ⟨hh, hs'⟩ := hok
          subst hh
          subst hs'
          exact ⟨WF.congr hwf rfl rfl ht.symm, fun q i hq => hq, le_refl _, rfl, rfl,
            Or.inr ⟨by simp, ht.symm, rfl, rfl⟩⟩
      | ignore =>
        constructor
        · intro m
          simp [pushToStack, hlook, hfidx, hin, ht, htf, hcycle, errorHandlingHandle, hcy, Except.bind, bind]
        · intro h s' hok
          simp [pushToStack, hlook, hfidx, hin, ht, htf, hcycle, errorHandlingHandle, hcy, Except.bind, bind] at hok
          obtain ⟨hh, hs'⟩ := hok
          subst hh
          subst hs'
          exact ⟨hwf, fun q i hq => hq, le_refl _, rfl, rfl,
            Or.inr ⟨by simp, rfl, rfl, rfl⟩⟩
    · have hin' : f.in_stack = false := by simpa using hin
      constructor
      · intro m
        simp [pushToStack, hlook, hfidx, hin']
      · intro h s' hok
        simp [pushToStack, hlook, hfidx, hin'] at hok
        obtain ⟨hh, hs'⟩ := hok
        subst hh
        subst hs'
        exact ⟨hwf, fun q i hq => hq, le_refl _, rfl, rfl,
          Or.inr ⟨by simp, rfl, rfl, rfl⟩⟩

-- output_copied_line never panics when the tail is a valid index, and touches
-- only the output and the line-directive expectation.
theorem outputCopiedLine_spec (s : ProcState) (line : String) {t : Nat} {f : FileState}
    (ht : s.tail_idx = some t) (hf : s.files[t]? = some f) :
    (∀ m, outputCopiedLine s line ≠ .error (.bug m)) ∧
    (∀ s', outputCopiedLine s line = .ok s' →
      s'.files = s.files ∧ s'.known_files = s.known_files ∧ s'.tail_idx = s.tail_idx ∧
      s'.warnings = s.warnings) := by
  cases he : s.expected_line with
  | none =>
    constructor
    · intro m
      simp [outputCopiedLine, he]
    · intro s' hok
      simp [outputCopiedLine, he] at hok
      subst hok
      exact ⟨rfl, rfl, rfl, rfl⟩
  | some expected =>
    by_cases hcur : ({ file_idx := some t, num := f.line_num } : LineRef) ≠ expected
    · constructor
      · intro m
        simp [outputCopiedLine, he, ht, hf, hcur]
      · intro s' hok
        simp [outputCopiedLine, he, ht, hf, hcur] at hok
        subst hok
        exact ⟨rfl, rfl, by simp [ht], rfl⟩
    · constructor
      · intro m
        simp [outputCopiedLine, he, ht, hf, hcur]
      · intro s' hok
        simp [outputCopiedLine, he, ht, hf, hcur] at hok
        subst hok
        exact ⟨rfl, rfl, by simp [ht], rfl⟩

-- Updating only the line counter of a record preserves well-formedness.
theorem WF.set_line_num {s : ProcState} (hwf : WF s) {t : Nat} {f : FileState}
    (hf : s.files[t]? = some f) (m : Nat) :
    WF { s with files := s.files.set t { f with line_num := m } } := by
  have htlen := getElem?_lt_length hf
  have hgetNe : ∀ i : Nat, t ≠ i →
      (s.files.set t { f with line_num := m })[i]? = s.files[i]? :=
    fun i hit => List.getElem?_set_ne hit
  have hgetT : (s.files.set t { f with line_num := m })[t]? =
      some { f with line_num := m } := by
    simp [List.getElem?_set, htlen]
  have hanc : ∀ a b : Nat,
      Ancestor (s.files.set t { f with line_num := m }) a b ↔ Ancestor s.files a b :=
    fun a b => ancestor_set_iff (g := { f with line_num := m }) hf rfl
  refine ⟨hwf.keysNodup, ?_, ?_, ?_, ?_, ?_⟩
  · intro p i hp
    obtain ⟨f', hf', hfp⟩ := hwf.knownSound _ _ hp
    by_cases hit : t = i
    · subst hit
      rw [hf] at hf'
      cases hf'
      exact ⟨{ f with line_num := m }, hgetT, hfp⟩
    · refine ⟨f', ?_, hfp⟩
      show (s.files.set t { f with line_num := m })[i]? = some f'
      rw [hgetNe i hit]
      exact hf'
  · intro i f' hf'
    by_cases hit : t = i
    · subst hit
      rw [show ({ s with files := s.files.set t { f with line_num := m } } :
        ProcState).files = s.files.set t { f with line_num := m } from rfl, hgetT] at hf'
      cases hf'
      show (f.canonical_path, t) ∈ s.known_files
      exact hwf.filesKnown _ _ hf
    · rw [show ({ s with files := s.files.set t { f with line_num := m } } :
        ProcState).files = s.files.set t { f with line_num := m } from rfl,
        hgetNe i hit] at hf'
      exact hwf.filesKnown _ _ hf'
  · intro i f' j hf' hincl
    by_cases hit : t = i
    · subst hit
      rw [show ({ s with files := s.files.set t { f with line_num := m } } :
        ProcState).files = s.files.set t { f with line_num := m } from rfl, hgetT] at hf'
      cases hf'
      exact hwf.inclLt _ _ _ hf hincl
    · rw [show ({ s with files := s.files.set t { f with line_num := m } } :
        ProcState).files = s.files.set t { f with line_num := m } from rfl,
        hgetNe i hit] at hf'
      exact hwf.inclLt _ _ _ hf' hincl
  · intro t' ht'
    simpa using hwf.tailLt _ ht'
  · intro i f' hf'
    rw [show ({ s with files := s.files.set t { f with line_num := m } } :
      ProcState).files = s.files.set t { f with line_num := m } from rfl] at hf'
    by_cases hit : t = i
    · subst hit
      rw [hgetT] at hf'
      cases hf'
      have hgoal : f.in_stack = true ↔ ∃ t0, s.tail_idx = some t0 ∧ Ancestor s.files t0 t :=
        hwf.stackChar _ _ hf
      show f.in_stack = true ↔ _
      constructor
      · intro hin
        obtain ⟨t0, ht0, ha⟩ := hgoal.mp hin
        exact ⟨t0, ht0, (hanc t0 t).mpr ha⟩
      · rintro ⟨t0, ht0, ha⟩
        exact hgoal.mpr ⟨t0, ht0, (hanc t0 t).mp ha⟩
    · rw [hgetNe i hit] at hf'
      rw [hwf.stackChar _ _ hf']
      exact exists_congr fun t0 => and_congr_right fun _ => (hanc t0 i).symm

-- LinesEnsures composes.
theorem LinesEnsures.trans {s s1 s2 : ProcState} (h1 : LinesEnsures s s1)
    (h2 : LinesEnsures s1 s2) : LinesEnsures s s2 := by
  obtain ⟨hwf1, hm1, hl1, ht1, hfr1, htl1⟩ := h1
  obtain ⟨hwf2, hm2, hl2, ht2, hfr2, htl2⟩ := h2
  refine ⟨hwf2, fun p i hp => hm2 _ _ (hm1 _ _ hp), le_trans hl1 hl2,
    ht2.trans ht1, ?_, ?_⟩
  · intro i hi hnt
    rw [hfr2 i (lt_of_lt_of_le hi hl1) (ht1 ▸ hnt), hfr1 i hi hnt]
  · intro t ft ht hft
    obtain ⟨n1, hn1⟩ := htl1 t ft ht hft
    obtain ⟨n2, hn2⟩ := htl2 t { ft with line_num := n1 } (ht1 ▸ ht) hn1
    exact ⟨n2, hn2⟩

-- IncEnsures is stronger than LinesEnsures.
theorem IncEnsures.toLines {s s' : ProcState} (h : IncEnsures s s') :
    LinesEnsures s s' := by
  obtain ⟨hwf, hm, hl, ht, hfr⟩ := h
  refine ⟨hwf, hm, hl, ht, fun i hi _ => hfr i hi, ?_⟩
  intro t ft ht' hft
  exact ⟨ft.line_num, by rw [hfr t (getElem?_lt_length hft), hft]⟩

-- process_include satisfies its specification whenever process_recursively
-- does at the same fuel.
theorem inc_of_rec {cfg : Config} {fuel : Nat} (hrec : RecHolds cfg fuel) :
    IncHolds cfg fuel := by
  intro s r dir hwf hlen
  have hnlt : ¬ r.length < 3 := by omega
  cases hshape : refShape r with
  | none =>
    have hcomp : processInclude cfg fuel s r dir = .ok (true, s) := by
      simp [processInclude, hnlt, hshape]
    refine ⟨fun m hm => ?_, fun b s' hok => ?_⟩
    · rw [hcomp] at hm
      cases hm
    · rw [hcomp] at hok
      cases hok
      exact ⟨hwf, fun q i h => h, le_refl _, rfl, fun i _ => rfl⟩
  | some is_system =>
    cases hres : (if is_system then cfg.resolveSystem (String.mk (r.tail.dropLast))
                  else cfg.resolveQuote (String.mk (r.tail.dropLast)) dir) with
    | none =>
      cases hh : (if is_system then cfg.opts.unresolvable_system_include
                  else cfg.opts.unresolvable_quote_include) with
      | error =>
        have hcomp : processInclude cfg fuel s r dir =
            .error (.fatal ("Could not resolve " ++ String.mk r)) := by
          simp [processInclude, hnlt, hshape, hres, hh, errorHandlingHandle,
            Except.bind, bind]
        refine ⟨fun m hm => ?_, fun b s' hok => ?_⟩
        · rw [hcomp] at hm
          cases hm
        · rw [hcomp] at hok
          cases hok
      | warn =>
        have hcomp : processInclude cfg fuel s r dir =
            .ok (true, { s with warnings :=
              s.warnings ++ ["Could not resolve " ++ String.mk r] }) := by
          simp [processInclude, hnlt, hshape, hres, hh, errorHandlingHandle,
            Except.bind, bind]
        refine ⟨fun m hm => ?_, fun b s' hok => ?_⟩
        · rw [hcomp] at hm
          cases hm
        · rw [hcomp] at hok
          cases hok
          exact ⟨WF.congr hwf rfl rfl rfl, fun q i h => h, le_refl _, rfl, fun i _ => rfl⟩
      | ignore =>
        have hcomp : processInclude cfg fuel s r dir = .ok (true, s) := by
          simp [processInclude, hnlt, hshape, hres, hh, errorHandlingHandle,
            Except.bind, bind]
        refine ⟨fun m hm => ?_, fun b s' hok => ?_⟩
        · rw [hcomp] at hm
          cases hm
        · rw [hcomp] at hok
          cases hok
          exact ⟨hwf, fun q i h => h, le_refl _, rfl, fun i _ => rfl⟩
    | some resolved =>
      by_cases hinl : cfg.shouldInline resolved is_system = true
      · cases hpush : pushToStack cfg s resolved with
        | error e =>
          have hnb := (pushToStack_spec cfg s resolved hwf).1
          have hene : ∀ m, e ≠ .bug m := fun m he =>
            hnb m (by rw [hpush, he])
          have hcomp : processInclude cfg fuel s r dir = .error e := by
            simp [processInclude, hnlt, hshape, hres, hinl, hpush, Except.bind, bind]
          refine ⟨fun m hm => ?_, fun b s' hok => ?_⟩
          · rw [hcomp] at hm
            injection hm with he
            exact hene m he
          · rw [hcomp] at hok
            cases hok
        | ok pr =>
          obtain ⟨h1, s1⟩ := pr
          have hps := (pushToStack_spec cfg s resolved hwf).2 h1 s1 hpush
          obtain ⟨hwf1, hm1, hl1, hexp1, hout1, hcase⟩ := hps
          cases h1 with
          | inline =>
            rcases hcase with ⟨-, hlook, ht1, hkf1, hfl1, hw1⟩ | ⟨hne, -, -, -⟩
            swap
            · exact absurd rfl hne
            have hrec1 := hrec s1 hwf1 (by rw [ht1]; rfl)
            cases hrecres : processRecursively cfg fuel s1 with
            | error e2 =>
              have hene : ∀ m, e2 ≠ .bug m := fun m he =>
                hrec1.1 m (by rw [hrecres, he])
              have hcomp : processInclude cfg fuel s r dir = .error e2 := by
                simp [processInclude, hnlt, hshape, hres, hinl, hpush, hrecres,
                  Except.bind, bind]
              refine ⟨fun m hm => ?_, fun b s' hok => ?_⟩
              · rw [hcomp] at hm
                injection hm with he
                exact hene m he
              · rw [hcomp] at hok
                cases hok
            | ok s2 =>
              have hre := hrec1.2 s2 hrecres
              obtain ⟨hwf2, hm2, hl2, t2, ft2, ht2, hft2, htail2, hfr2, n2, hn2⟩ := hre
              have ht2v : t2 = s.files.length := by
                rw [ht1] at ht2
                cases ht2
                rfl
              subst ht2v
              have hft2v : ft2 =
                  { canonical_path := resolved, included_by := s.tail_idx,
                    line_num := 0, in_stack := true } := by
                rw [hfl1] at hft2
                rw [List.getElem?_concat_length] at hft2
                cases hft2
                rfl
              have hcomp : processInclude cfg fuel s r dir = .ok (false, s2) := by
                simp [processInclude, hnlt, hshape, hres, hinl, hpush, hrecres,
                  Except.bind, bind]
              refine ⟨fun m hm => ?_, fun b s' hok => ?_⟩
              · rw [hcomp] at hm
                cases hm
              · rw [hcomp] at hok
                cases hok
                refine ⟨hwf2, fun q i h => hm2 _ _ (hm1 _ _ h),
                  le_trans hl1 hl2, ?_, ?_⟩
                · rw [htail2, hft2v]
                · intro i hi
                  have hi1 : i < s1.files.length := lt_of_lt_of_le hi hl1
                  have hne : i ≠ s.files.length := by omega
                  rw [hfr2 i hi1 hne, hfl1, List.getElem?_append_left hi]
          | remove =>
            rcases hcase with ⟨hinl', -, -, -, -, -⟩ | ⟨-, ht1, hfl1, hkf1⟩
            · cases hinl'
            have hcomp : processInclude cfg fuel s r dir = .ok (false, s1) := by
              simp [processInclude, hnlt, hshape, hres, hinl, hpush, Except.bind, bind]
            refine ⟨fun m hm => ?_, fun b s' hok => ?_⟩
            · rw [hcomp] at hm
              cases hm
            · rw [hcomp] at hok
              cases hok
              exact ⟨hwf1, hm1, hl1, ht1, fun i hi => by rw [hfl1]⟩
          | leave =>
            rcases hcase with ⟨hinl', -, -, -, -, -⟩ | ⟨-, ht1, hfl1, hkf1⟩
            · cases hinl'
            have hcomp : processInclude cfg fuel s r dir = .ok (true, s1) := by
              simp [processInclude, hnlt, hshape, hres, hinl, hpush, Except.bind, bind]
            refine ⟨fun m hm => ?_, fun b s' hok => ?_⟩
            · rw [hcomp] at hm
              cases hm
            · rw [hcomp] at hok
              cases hok
              exact ⟨hwf1, hm1, hl1, ht1, fun i hi => by rw [hfl1]⟩
      · have hcomp : processInclude cfg fuel s r dir = .ok (true, s) := by
          simp [processInclude, hnlt, hshape, hres, hinl]
        refine ⟨fun m hm => ?_, fun b s' hok => ?_⟩
        · rw [hcomp] at hm
          cases hm
        · rw [hcomp] at hok
          cases hok
          exact ⟨hwf, fun q i h => h, le_refl _, rfl, fun i _ => rfl⟩

-- Helper lemmas about whitespace runs, takeWhile/dropWhile and stripToken,
-- used to characterise the two regex parsers.

theorem isWs_takeWhile (l : List Char) : IsWsList (l.takeWhile Char.isWhitespace) :=
  fun c hc => List.mem_takeWhile_imp hc

theorem dropWhile_append_all {α : Type} (p : α → Bool) (w l : List α)
    (hw : ∀ c ∈ w, p c = true) : (w ++ l).dropWhile p = l.dropWhile p := by
  induction w with
  | nil => rfl
  | cons c w ih
  =>
    have hc := hw c (by simp)
    simp only [List.cons_append, List.dropWhile_cons, hc, if_true]
    exact ih (fun x hx => hw x (by simp [hx]))

theorem dropWhile_cons_false {α : Type} (p : α → Bool) (c : α) (l : List α)
    (hc : p c = false) : (c :: l).dropWhile p = c :: l := by
  simp [List.dropWhile_cons, hc]

theorem dropWhile_eq_nil_of_all {α : Type} (p : α → Bool) (l : List α)
    (h : ∀ c ∈ l, p c = true) : l.dropWhile p = [] := by
  induction l with
  | nil => rfl
  | cons c l ih =>
    have hc := h c (by simp)
    simp only [List.dropWhile_cons, hc, if_true]
    exact ih (fun x hx => h x (by simp [hx]))

theorem all_of_dropWhile_eq_nil {α : Type} {p : α → Bool} {l : List α}
    (h : l.dropWhile p = []) : ∀ c ∈ l, p c = true := by
  induction l with
  | nil => intro c hc; cases hc
  | cons c l ih =>
    by_cases hc : p c = true
    · rw [List.dropWhile_cons, if_pos hc] at h
      intro x hx
      rcases List.mem_cons.mp hx with hx | hx
      · subst hx; exact hc
      · exact ih h x hx
    · rw [List.dropWhile_cons, if_neg hc] at h
      cases h

theorem dropWhile_head_false {α : Type} {p : α → Bool} {l r : List α} {c : α}
    (h : l.dropWhile p = c :: r) : p c = false := by
  induction l with
  | nil => cases h
  | cons a l ih =>
    by_cases ha : p a = true
    · rw [List.dropWhile_cons, if_pos ha] at h
      exact ih h
    · rw [List.dropWhile_cons, if_neg ha] at h
      cases h
      simpa using ha

theorem takeWhile_append_cons {α : Type} (p : α → Bool) (X : List α) (c : α) (r : List α)
    (hX : ∀ x ∈ X, p x = true) (hc : p c = false) :
    (X ++ c :: r).takeWhile p = X := by
  induction X with
  | nil => simp [List.takeWhile_cons, hc]
  | cons x X ih =>
    have hx := hX x (by simp)
    simp only [List.cons_append, List.takeWhile_cons, hx, if_true]
    rw [ih (fun y hy => hX y (by simp [hy]))]

theorem dropWhile_append_cons {α : Type} (p : α → Bool) (X : List α) (c : α) (r : List α)
    (hX : ∀ x ∈ X, p x = true) (hc : p c = false) :
    (X ++ c :: r).dropWhile p = c :: r := by
  rw [dropWhile_append_all p X _ hX, List.dropWhile_cons, if_neg (by simp [hc])]

theorem stripToken_sound : ∀ (pre s r : List Char), stripToken pre s = some r →
    s = pre ++ r := by
  intro pre
  induction pre with
  | nil =>
    intro s r h
    simp [stripToken] at h
    simp [h]
  | cons c cs ih =>
    intro s r h
    cases s with
    | nil => cases h
    | cons d ds =>
      by_cases hcd : c = d
      · subst hcd
        simp [stripToken] at h
        simpa using ih ds r h
      · simp [stripToken, hcd] at h

theorem stripToken_self : ∀ (pre r : List Char), stripToken pre (pre ++ r) = some r := by
  intro pre
  induction pre with
  | nil => intro r; rfl
  | cons c cs ih => intro r; simp [stripToken, ih]

theorem takeWhile_ws_append (l : List Char) :
    l.takeWhile Char.isWhitespace ++ dropWs l = l :=
  List.takeWhile_append_dropWhile Char.isWhitespace l

-- Building direction: a line of the decomposed shape parses to the capture.
theorem includeCapture_build (w1 w2 w3 : List Char) (od : Char) (body : List Char)
    (cd : Char) (w4 : List Char) (hw1 : IsWsList w1) (hw2 : IsWsList w2)
    (hw3 : IsWsList w3) (hw4 : IsWsList w4) (hod : od = '"' ∨ od = '<')
    (hcd : cd = '"' ∨ cd = '>') (hbody : body ≠ [])
    (hbc : ∀ c ∈ body, c ≠ '"' ∧ c ≠ '>') :
    includeCapture (w1 ++ ['#'] ++ w2 ++ "include".toList ++ w3 ++ [od] ++ body ++ [cd] ++ w4)
      = some (od :: (body ++ [cd])) := by
  have hodws : od.isWhitespace = false := by
    rcases hod with h | h <;> subst h <;> decide
  have hcdbody : refBodyChar cd = false := by
    rcases hcd with h | h <;> subst h <;> decide
  have hbodyref : ∀ c ∈ body, refBodyChar c = true := by
    intro c hc
    obtain ⟨h1, h2⟩ := hbc c hc
    simp [refBodyChar, h1, h2]
  have e1 : dropWs (w1 ++ ['#'] ++ w2 ++ "include".toList ++ w3 ++ [od] ++ body ++ [cd] ++ w4)
      = '#' :: (w2 ++ ("include".toList ++ (w3 ++ (od :: (body ++ cd :: w4))))) := by
    have ha : w1 ++ ['#'] ++ w2 ++ "include".toList ++ w3 ++ [od] ++ body ++ [cd] ++ w4
        = w1 ++ '#' :: (w2 ++ ("include".toList ++ (w3 ++ (od :: (body ++ cd :: w4))))) := by
      simp
    rw [ha]
    unfold dropWs
    rw [dropWhile_append_all _ w1 _ hw1, dropWhile_cons_false _ _ _ (by decide)]
  have e2 : dropWs (w2 ++ ("include".toList ++ (w3 ++ (od :: (body ++ cd :: w4)))))
      = "include".toList ++ (w3 ++ (od :: (body ++ cd :: w4))) := by
    unfold dropWs
    rw [dropWhile_append_all _ w2 _ hw2]
    rw [show ("include".toList : List Char) ++ (w3 ++ (od :: (body ++ cd :: w4)))
        = 'i' :: ("nclude".toList ++ (w3 ++ (od :: (body ++ cd :: w4)))) from rfl]
    rw [dropWhile_cons_false _ _ _ (by decide)]
  have e3 : stripToken "include".toList
      ("include".toList ++ (w3 ++ (od :: (body ++ cd :: w4))))
      = some (w3 ++ (od :: (body ++ cd :: w4))) := stripToken_self _ _
  have e4 : dropWs (w3 ++ (od :: (body ++ cd :: w4))) = od :: (body ++ cd :: w4) := by
    unfold dropWs
    rw [dropWhile_append_all _ w3 _ hw3, dropWhile_cons_false _ _ _ hodws]
  have e5 : (body ++ cd :: w4).takeWhile refBodyChar = body :=
    takeWhile_append_cons _ _ _ _ hbodyref hcdbody
  have e6 : (body ++ cd :: w4).dropWhile refBodyChar = cd :: w4 :=
    dropWhile_append_cons _ _ _ _ hbodyref hcdbody
  have e7 : dropWs w4 = [] := dropWhile_eq_nil_of_all _ _ hw4
  have e8 : (decide (od = '"') || decide (od = '<')) = true := by
    rcases hod with h | h <;> simp [h]
  have e9 : (decide (cd = '"') || decide (cd = '>')) = true := by
    rcases hcd with h | h <;> simp [h]
  unfold includeCapture
  rw [e1]
  simp only [e2, e3, e4, e5, e6, e7, e8, e9]
  simp [hbody, e5]

-- The two directions together: the include regex matches the line with
-- capture cap exactly when the line decomposes as described.
theorem includeCapture_eq_some_iff {line cap : List Char} :
    includeCapture line = some cap ↔ CaptureDecomp line cap := by
  constructor
  · intro h
    unfold includeCapture at h
    split at h
    next r1 heq1 =>
      split at h
      next r2 heq2 =>
        split at h
        next od r3 heq3 =>
          split at h
          next hod =>
            split at h
            next cd r4 heq4 =>
              split at h
              next hcond =>
                dsimp only [] at h
                split at h
                next hempty => cases h
                next hempty =>
                  cases h
                  refine ⟨line.takeWhile Char.isWhitespace, r1.takeWhile Char.isWhitespace,
                    r2.takeWhile Char.isWhitespace, od, r3.takeWhile refBodyChar, cd, r4,
                    ?_, isWs_takeWhile _, isWs_takeWhile _, isWs_takeWhile _, ?_,
                    ?_, ?_, ?_, ?_, rfl⟩
                  · calc line = line.takeWhile Char.isWhitespace ++ dropWs line :=
                        (takeWhile_ws_append line).symm
                    _ = line.takeWhile Char.isWhitespace ++ ('#' :: r1) := by rw [heq1]
                    _ = line.takeWhile Char.isWhitespace ++
                        ('#' :: (r1.takeWhile Char.isWhitespace ++ dropWs r1)) := by
                        rw [takeWhile_ws_append r1]
                    _ = line.takeWhile Char.isWhitespace ++
                        ('#' :: (r1.takeWhile Char.isWhitespace ++
                          ("include".toList ++ r2))) := by
                        rw [stripToken_sound _ _ _ heq2]
                    _ = line.takeWhile Char.isWhitespace ++
                        ('#' :: (r1.takeWhile Char.isWhitespace ++
                          ("include".toList ++
                            (r2.takeWhile Char.isWhitespace ++ dropWs r2)))) := by
                        rw [takeWhile_ws_append r2]
                    _ = line.takeWhile Char.isWhitespace ++
                        ('#' :: (r1.takeWhile Char.isWhitespace ++
                          ("include".toList ++
                            (r2.takeWhile Char.isWhitespace ++ (od :: r3))))) := by
                        rw [heq3]
                    _ = line.takeWhile Char.isWhitespace ++
                        ('#' :: (r1.takeWhile Char.isWhitespace ++
                          ("include".toList ++
                            (r2.takeWhile Char.isWhitespace ++
                              (od :: (r3.takeWhile refBodyChar ++
                                r3.dropWhile refBodyChar)))))) := by
                        rw [List.takeWhile_append_dropWhile]
                    _ = line.takeWhile Char.isWhitespace ++
                        ('#' :: (r1.takeWhile Char.isWhitespace ++
                          ("include".toList ++
                            (r2.takeWhile Char.isWhitespace ++
                              (od :: (r3.takeWhile refBodyChar ++ (cd :: r4))))))) := by
                        rw [heq4]
                    _ = line.takeWhile Char.isWhitespace ++ ['#'] ++
                        r1.takeWhile Char.isWhitespace ++ "include".toList ++
                        r2.takeWhile Char.isWhitespace ++ [od] ++
                        r3.takeWhile refBodyChar ++ [cd] ++ r4 := by simp
                  · have hc2 := (Bool.and_eq_true _ _).mp hcond
                    have hnil : r4.dropWhile Char.isWhitespace = [] := by
                      have h2 := hc2.2
                      simpa [dropWs] using h2
                    intro c hc
                    exact all_of_dropWhile_eq_nil hnil c hc
                  · simpa using hod
                  · have hc2 := (Bool.and_eq_true _ _).mp hcond
                    simpa using hc2.1
                  · simpa using hempty
                  · intro c hc
                    have := List.mem_takeWhile_imp hc
                    simp [refBodyChar] at this
                    exact ⟨this.2, this.1⟩
              next hcond =>
                dsimp only [] at h
                split at h
                next => cases h
                next => cases h
            next heq4 => cases h
          next hod => cases h
        next heq3 => cases h
      next heq2 => cases h
    next heq1 => cases h
  · rintro ⟨w1, w2, w3, od, body, cd, w4, hline, hw1, hw2, hw3, hw4, hod, hcd,
      hbody, hbc, hcap⟩
    subst hline
    subst hcap
    exact includeCapture_build w1 w2 w3 od body cd w4 hw1 hw2 hw3 hw4 hod hcd hbody hbc

theorem includeCapture_three_le {line cap : List Char}
    (h : includeCapture line = some cap) : 3 ≤ cap.length := by
  rcases includeCapture_eq_some_iff.mp h with
    ⟨w1, w2, w3, od, body, cd, w4, hline, hw1, hw2, hw3, hw4, hod, hcd, hbody, hbc, hcap⟩
  subst hcap
  have : 1 ≤ body.length := by
    cases body with
    | nil => exact absurd rfl hbody
    | cons c l => simp
  simp
  omega

-- The read-line loop satisfies its specification whenever process_include
-- does at the same fuel.
theorem lines_of_inc {cfg : Config} {fuel : Nat} (hinc : IncHolds cfg fuel) :
    LinesHolds cfg fuel := by
  intro dir lines
  induction lines with
  | nil =>
    intro s hwf hts
    have hnil : processLines cfg fuel dir [] s = .ok s := by
      simp [processLines]
    refine ⟨fun m hm => ?_, fun s' hok => ?_⟩
    · rw [hnil] at hm
      cases hm
    · rw [hnil] at hok
      cases hok
      refine ⟨hwf, fun q i h => h, le_refl _, rfl, fun i _ _ => rfl, ?_⟩
      intro t ft ht hft
      exact ⟨ft.line_num, hft⟩
  | cons line rest ih =>
    intro s hwf hts
    obtain ⟨t, ht⟩ := Option.isSome_iff_exists.mp hts
    have htlen : t < s.files.length := hwf.tailLt _ ht
    obtain ⟨f, hf⟩ : ∃ f, s.files[t]? = some f :=
      ⟨s.files[t], List.getElem?_eq_getElem htlen⟩
    set s1 : ProcState :=
      { s with files := s.files.set t { f with line_num := f.line_num + 1 } } with hs1
    have hwf1 : WF s1 := hwf.set_line_num hf _
    have hts1 : s1.tail_idx.isSome := by rw [show s1.tail_idx = s.tail_idx from rfl]; exact hts
    have hstep : LinesEnsures s s1 := by
      refine ⟨hwf1, fun q i h => h, by simp [hs1], rfl, ?_, ?_⟩
      · intro i hi hnt
        show (s.files.set t { f with line_num := f.line_num + 1 })[i]? = s.files[i]?
        refine List.getElem?_set_ne ?_
        intro hti
        exact hnt (hti ▸ ht)
      · intro t' ft' ht' hft'
        have htt : t' = t := by
          rw [ht] at ht'
          cases ht'
          rfl
        subst htt
        rw [hf] at hft'
        cases hft'
        refine ⟨f.line_num + 1, ?_⟩
        show (s.files.set t' { f with line_num := f.line_num + 1 })[t']? = _
        simp [List.getElem?_set, htlen]
    by_cases hpragma : pragmaOnceMatch line.toList = true
    · have hprag2 : pragmaOnceMatch line.data = true := hpragma
      have hcomp : processLines cfg fuel dir (line :: rest) s =
          processLines cfg fuel dir rest s1 := by
        simp [processLines, ht, hf, hprag2, hs1]
      obtain ⟨hnb, hok⟩ := ih s1 hwf1 hts1
      refine ⟨fun m hm => hnb m (by rw [← hcomp]; exact hm), fun s' h => ?_⟩
      rw [hcomp] at h
      exact hstep.trans (hok s' h)
    · have hprag2 : pragmaOnceMatch line.data = false := by
        simpa using hpragma
      cases hcap : includeCapture line.toList with
      | none =>
        have hcap2 : includeCapture line.data = none := hcap
        cases hout : outputCopiedLine s1 line with
        | error e =>
          have hosp := outputCopiedLine_spec s1 line (t := t) (f := { f with line_num := f.line_num + 1 })
            (by rw [show s1.tail_idx = s.tail_idx from rfl]; exact ht)
            (by show (s.files.set t { f with line_num := f.line_num + 1 })[t]? = _;
                simp [List.getElem?_set, htlen])
          have hene : ∀ m, e ≠ .bug m := fun m he => hosp.1 m (by rw [hout, he])
          rw [hs1] at hout
          simp only [ht] at hout
          have hcomp : processLines cfg fuel dir (line :: rest) s = .error e := by
            simp [processLines, ht, hf, hprag2, hcap2, hout, Except.bind, bind]
          refine ⟨fun m hm => ?_, fun s' hk => ?_⟩
          · rw [hcomp] at hm
            injection hm with he
            exact hene m he
          · rw [hcomp] at hk
            cases hk
        | ok s3 =>
          have hosp := outputCopiedLine_spec s1 line (t := t) (f := { f with line_num := f.line_num + 1 })
            (by rw [show s1.tail_idx = s.tail_idx from rfl]; exact ht)
            (by show (s.files.set t { f with line_num := f.line_num + 1 })[t]? = _;
                simp [List.getElem?_set, htlen])
          obtain ⟨hfl3, hkf3, ht3, hw3⟩ := hosp.2 s3 hout
          rw [hs1] at hout
          simp only [ht] at hout
          have hwf3 : WF s3 := hwf1.congr hfl3 hkf3 ht3
          have hstep3 : LinesEnsures s1 s3 := by
            refine ⟨hwf3, ?_, by rw [hfl3], ht3, fun i hi _ => by rw [hfl3], ?_⟩
            · intro q i h
              rw [hkf3]
              exact h
            · intro t' ft' ht' hft'
              exact ⟨ft'.line_num, by rw [hfl3, hft']⟩
          have hts3 : s3.tail_idx.isSome := by
            rw [ht3]
            exact hts1
          have hcomp : processLines cfg fuel dir (line :: rest) s =
              processLines cfg fuel dir rest s3 := by
            simp [processLines, ht, hf, hprag2, hcap2, hout, Except.bind, bind]
          obtain ⟨hnb, hok⟩ := ih s3 hwf3 hts3
          refine ⟨fun m hm => hnb m (by rw [← hcomp]; exact hm), fun s' h => ?_⟩
          rw [hcomp] at h
          exact (hstep.trans hstep3).trans (hok s' h)
      | some cap =>
        have hcap2 : includeCapture line.data = some cap := hcap
        have hlen3 := includeCapture_three_le hcap
        obtain ⟨hincnb, hincok⟩ := hinc s1 cap dir hwf1 hlen3
        cases hires : processInclude cfg fuel s1 cap dir with
        | error e =>
          have hene : ∀ m, e ≠ .bug m := fun m he => hincnb m (by rw [hires, he])
          rw [hs1] at hires
          simp only [ht] at hires
          have hcomp : processLines cfg fuel dir (line :: rest) s = .error e := by
            simp [processLines, ht, hf, hprag2, hcap2, hires, Except.bind, bind]
          refine ⟨fun m hm => ?_, fun s' hk => ?_⟩
          · rw [hcomp] at hm
            injection hm with he
            exact hene m he
          · rw [hcomp] at hk
            cases hk
        | ok pr =>
          obtain ⟨keep, s2⟩ := pr
          have hie : IncEnsures s1 s2 := hincok keep s2 hires
          rw [hs1] at hires
          simp only [ht] at hires
          obtain ⟨hwf2, hm2, hl2, ht2, hfr2⟩ := hie
          have hts2 : s2.tail_idx.isSome := by
            rw [ht2]
            exact hts1
          cases keep with
          | false =>
            have hcomp : processLines cfg fuel dir (line :: rest) s =
                processLines cfg fuel dir rest s2 := by
              simp [processLines, ht, hf, hprag2, hcap2, hires, Except.bind, bind]
            obtain ⟨hnb, hok⟩ := ih s2 hwf2 hts2
            refine ⟨fun m hm => hnb m (by rw [← hcomp]; exact hm), fun s' h => ?_⟩
            rw [hcomp] at h
            exact (hstep.trans (IncEnsures.toLines ⟨hwf2, hm2, hl2, ht2, hfr2⟩)).trans (hok s' h)
          | true =>
            have hft2 : s2.files[t]? = some { f with line_num := f.line_num + 1 } := by
              rw [hfr2 t (by simp [hs1]; omega)]
              show (s.files.set t { f with line_num := f.line_num + 1 })[t]? = _
              simp [List.getElem?_set, htlen]
            cases hout : outputCopiedLine s2 line with
            | error e =>
              have hosp := outputCopiedLine_spec s2 line (t := t)
                (f := { f with line_num := f.line_num + 1 })
                (by rw [ht2]; show s1.tail_idx = some t; exact ht) hft2
              have hene : ∀ m, e ≠ .bug m := fun m he => hosp.1 m (by rw [hout, he])
              have hcomp : processLines cfg fuel dir (line :: rest) s = .error e := by
                simp [processLines, ht, hf, hprag2, hcap2, hires, hout,
                  Except.bind, bind]
              refine ⟨fun m hm => ?_, fun s' hk => ?_⟩
              · rw [hcomp] at hm
                injection hm with he
                exact hene m he
              · rw [hcomp] at hk
                cases hk
            | ok s3 =>
              have hosp := outputCopiedLine_spec s2 line (t := t)
                (f := { f with line_num := f.line_num + 1 })
                (by rw [ht2]; show s1.tail_idx = some t; exact ht) hft2
              obtain ⟨hfl3, hkf3, ht3, hw3⟩ := hosp.2 s3 hout
              have hwf3 : WF s3 := hwf2.congr hfl3 hkf3 ht3
              have hstep3 : LinesEnsures s2 s3 := by
                refine ⟨hwf3, ?_, by rw [hfl3], ht3, fun i hi _ => by rw [hfl3], ?_⟩
                · intro q i h
                  rw [hkf3]
                  exact h
                · intro t' ft' ht' hft'
                  exact ⟨ft'.line_num, by rw [hfl3, hft']⟩
              have hts3 : s3.tail_idx.isSome := by
                rw [ht3]
                exact hts2
              have hcomp : processLines cfg fuel dir (line :: rest) s =
                  processLines cfg fuel dir rest s3 := by
                simp [processLines, ht, hf, hprag2, hcap2, hires, hout,
                  Except.bind, bind]
              obtain ⟨hnb, hok⟩ := ih s3 hwf3 hts3
              refine ⟨fun m hm => hnb m (by rw [← hcomp]; exact hm), fun s' h => ?_⟩
              rw [hcomp] at h
              exact ((hstep.trans (IncEnsures.toLines ⟨hwf2, hm2, hl2, ht2, hfr2⟩)).trans hstep3).trans (hok s' h)

-- Popping the tail record (clearing in_stack and restoring the tail to the
-- parent) preserves well-formedness.
theorem WF.pop {s1 : ProcState} (hwf1 : WF s1) {t : Nat} {f1 : FileState}
    (ht1 : s1.tail_idx = some t) (hf1 : s1.files[t]? = some f1) :
    WF { s1 with files := s1.files.set t { f1 with in_stack := false },
                 tail_idx := f1.included_by } := by
  have htlen : t < s1.files.length := getElem?_lt_length hf1
  have hfilesEq :
      ProcState.files
        { s1 with
          files := s1.files.set t { f1 with in_stack := false },
          tail_idx := f1.included_by }
      = s1.files.set t { f1 with in_stack := false } := rfl
  have htailEq :
      ProcState.tail_idx
        { s1 with
          files := s1.files.set t { f1 with in_stack := false },
          tail_idx := f1.included_by }
      = f1.included_by := rfl
  have hgetNe : ∀ i : Nat, t ≠ i →
      (s1.files.set t { f1 with in_stack := false })[i]? = s1.files[i]? :=
    fun i hit => List.getElem?_set_ne hit
  have hgetT : (s1.files.set t { f1 with in_stack := false })[t]? =
      some { f1 with in_stack := false } := by
    simp [List.getElem?_set, htlen]
  have hanc : ∀ a b : Nat,
      Ancestor (s1.files.set t { f1 with in_stack := false }) a b ↔
        Ancestor s1.files a b :=
    fun a b => ancestor_set_iff (g := { f1 with in_stack := false }) hf1 rfl
  refine ⟨hwf1.keysNodup, ?_, ?_, ?_, ?_, ?_⟩
  · intro p i hp
    obtain ⟨f', hf', hfp⟩ := hwf1.knownSound _ _ hp
    by_cases hit : t = i
    · subst hit
      rw [hf1] at hf'
      cases hf'
      exact ⟨{ f1 with in_stack := false }, hgetT, hfp⟩
    · refine ⟨f', ?_, hfp⟩
      rw [hfilesEq, hgetNe i hit]
      exact hf'
  · intro i f' hf'
    rw [hfilesEq] at hf'
    by_cases hit : t = i
    · subst hit
      rw [hgetT] at hf'
      cases hf'
      show (f1.canonical_path, t) ∈ s1.known_files
      exact hwf1.filesKnown _ _ hf1
    · rw [hgetNe i hit] at hf'
      exact hwf1.filesKnown _ _ hf'
  · intro i f' j hf' hincl
    rw [hfilesEq] at hf'
    by_cases hit : t = i
    · subst hit
      rw [hgetT] at hf'
      cases hf'
      exact hwf1.inclLt _ _ _ hf1 hincl
    · rw [hgetNe i hit] at hf'
      exact hwf1.inclLt _ _ _ hf' hincl
  · intro t' ht'
    rw [htailEq] at ht'
    have hlt := hwf1.inclLt _ _ _ hf1 ht'
    rw [hfilesEq]
    simpa using lt_trans hlt htlen
  · intro i f' hf'
    rw [hfilesEq] at hf'
    rw [htailEq, hfilesEq]
    by_cases hit : t = i
    · subst hit
      rw [hgetT] at hf'
      cases hf'
      show false = true ↔ _
      constructor
      · intro h
        exact absurd h (by decide)
      · rintro ⟨t2, ht2, hancst⟩
        have ha : Ancestor s1.files t2 t := (hanc t2 t).mp hancst
        have hle : t ≤ t2 := Ancestor.le hwf1.inclLt ha
        have hlt : t2 < t := hwf1.inclLt _ _ _ hf1 ht2
        omega
    · rw [hgetNe i hit] at hf'
      rw [hwf1.stackChar _ _ hf']
      constructor
      · rintro ⟨t0, ht0, ha⟩
        rw [ht1] at ht0
        cases ht0
        rcases ancestor_cases ha with heq | ⟨f'', j, hf'', hincl, ha'⟩
        · exact absurd heq hit
        · rw [hf1] at hf''
          cases hf''
          exact ⟨j, hincl, (hanc j i).mpr ha'⟩
      · rintro ⟨t2, ht2, hancst⟩
        exact ⟨t, ht1, Ancestor.step hf1 ht2 ((hanc t2 i).mp hancst)⟩

theorem rec_zero {cfg : Config} : RecHolds cfg 0 := by
  intro s hwf hts
  have hz : processRecursively cfg 0 s = .error .outOfFuel := by
    simp [processRecursively]
  refine ⟨fun m hm => ?_, fun s' h => ?_⟩
  · rw [hz] at hm
    cases hm
  · rw [hz] at h
    cases h

-- process_recursively satisfies its specification at fuel + 1 whenever the
-- read-line loop does at fuel.
theorem rec_succ {cfg : Config} {fuel : Nat} (hlines : LinesHolds cfg fuel) :
    RecHolds cfg (fuel + 1) := by
  intro s hwf hts
  obtain ⟨t, ht⟩ := Option.isSome_iff_exists.mp hts
  have htlen := hwf.tailLt _ ht
  obtain ⟨f, hf⟩ : ∃ f, s.files[t]? = some f :=
    ⟨s.files[t], List.getElem?_eq_getElem htlen⟩
  cases hpd : cfg.parentDir f.canonical_path with
  | none =>
    have hcomp : processRecursively cfg (fuel + 1) s =
        .error (.fatal "Processed file has no parent directory") := by
      simp [processRecursively, ht, hf, hpd]
    refine ⟨fun m hm => ?_, fun s' h => ?_⟩
    · rw [hcomp] at hm
      cases hm
    · rw [hcomp] at h
      cases h
  | some dir =>
    cases hfs : lookupFS cfg.fs f.canonical_path with
    | none =>
      have hcomp : processRecursively cfg (fuel + 1) s =
          .error (.fatal ("Failed to open file " ++ f.canonical_path)) := by
        simp [processRecursively, ht, hf, hpd, hfs]
      refine ⟨fun m hm => ?_, fun s' h => ?_⟩
      · rw [hcomp] at hm
        cases hm
      · rw [hcomp] at h
        cases h
    | some content =>
      obtain ⟨hlnb, hlok⟩ := hlines dir content s hwf hts
      cases hlres : processLines cfg fuel dir content s with
      | error e =>
        have hene : ∀ m, e ≠ .bug m := fun m he => hlnb m (by rw [hlres, he])
        have hcomp : processRecursively cfg (fuel + 1) s = .error e := by
          simp [processRecursively, ht, hf, hpd, hfs, hlres, Except.bind, bind]
        refine ⟨fun m hm => ?_, fun s' h => ?_⟩
        · rw [hcomp] at hm
          injection hm with he
          exact hene m he
        · rw [hcomp] at h
          cases h
      | ok s1 =>
        obtain ⟨hwf1, hm1, hl1, ht1, hfr1, htl1⟩ := hlok s1 hlres
        have ht1' : s1.tail_idx = some t := by rw [ht1, ht]
        obtain ⟨n, hn⟩ := htl1 t f ht hf
        have hcomp : processRecursively cfg (fuel + 1) s =
            .ok { s1 with
              files := s1.files.set t { f with line_num := n, in_stack := false },
              tail_idx := f.included_by } := by
          simp [processRecursively, ht, hf, hpd, hfs, hlres, ht1', hn,
            Except.bind, bind]
        refine ⟨fun m hm => ?_, fun s' h => ?_⟩
        · rw [hcomp] at hm
          cases hm
        · rw [hcomp] at h
          cases h
          have hwfp := hwf1.pop ht1' hn
          refine ⟨hwfp, hm1, ?_, t, f, ht, hf, rfl, ?_, n, ?_⟩
          · simpa using hl1
          · intro i hi hit
            show (s1.files.set t { f with line_num := n, in_stack := false })[i]? =
              s.files[i]?
            rw [List.getElem?_set_ne (fun he => hit he.symm)]
            exact hfr1 i hi (by rw [ht]; intro hc; cases hc; exact hit rfl)
          · show (s1.files.set t { f with line_num := n, in_stack := false })[t]? = _
            have htlen1 : t < s1.files.length := getElem?_lt_length hn
            simp [List.getElem?_set, htlen1]

-- The combined induction: all three traversal functions satisfy their
-- specifications at every fuel.
theorem traversalSpec (cfg : Config) (fuel : Nat) :
    RecHolds cfg fuel ∧ IncHolds cfg fuel ∧ LinesHolds cfg fuel := by
  induction fuel with
  | zero =>
    exact ⟨rec_zero, inc_of_rec rec_zero, lines_of_inc (inc_of_rec rec_zero)⟩
  | succ n ih =>
    have hr := rec_succ ih.2.2
    exact ⟨hr, inc_of_rec hr, lines_of_inc (inc_of_rec hr)⟩

-- The freshly created processor state is well-formed.
theorem wf_processorNew (ld : Bool) : WF (processorNew ld) := by
  refine ⟨?_, ?_, ?_, ?_, ?_, ?_⟩
  · simp [processorNew]
  · intro p i hp
    simp [processorNew] at hp
  · intro i f hf
    simp [processorNew] at hf
  · intro i f j hf
    simp [processorNew] at hf
  · intro t ht
    simp [processorNew] at ht
  · intro i f hf
    simp [processorNew] at hf

-- Top-level specification of process: on a well-formed state with an empty
-- traversal stack it never panics, and on success the state is again
-- well-formed with an empty stack (so no record is left in_stack).
theorem process_spec (cfg : Config) (fuel : Nat) (s : ProcState) (root : String)
    (hwf : WF s) (ht : s.tail_idx = none) :
    (∀ m, process cfg fuel s root ≠ .error (.bug m)) ∧
    (∀ s', process cfg fuel s root = .ok s' →
      WF s' ∧ s'.tail_idx = none ∧ KnownMono s s' ∧
      s.files.length ≤ s'.files.length) := by
  cases hpush : pushToStack cfg s root with
  | error e =>
    have hene : ∀ m, e ≠ .bug m := fun m he =>
      (pushToStack_spec cfg s root hwf).1 m (by rw [hpush, he])
    have hcomp : process cfg fuel s root = .error e := by
      simp [process, ht, hpush, Except.bind, bind]
    refine ⟨fun m hm => ?_, fun s' h => ?_⟩
    · rw [hcomp] at hm
      injection hm with he
      exact hene m he
    · rw [hcomp] at h
      cases h
  | ok pr =>
    obtain ⟨h1, s1⟩ := pr
    obtain ⟨hwf1, hm1, hl1, hexp1, hout1, hcase⟩ :=
      (pushToStack_spec cfg s root hwf).2 h1 s1 hpush
    cases h1 with
    | inline =>
      rcases hcase with ⟨-, hlook, ht1, hkf1, hfl1, hw1⟩ | ⟨hne, -, -, -⟩
      swap
      · exact absurd rfl hne
      have hrec := (traversalSpec cfg fuel).1 s1 hwf1 (by rw [ht1]; rfl)
      cases hrecres : processRecursively cfg fuel s1 with
      | error e =>
        have hene : ∀ m, e ≠ .bug m := fun m he => hrec.1 m (by rw [hrecres, he])
        have hcomp : process cfg fuel s root = .error e := by
          simp [process, ht, hpush, hrecres, Except.bind, bind]
        refine ⟨fun m hm => ?_, fun s' h => ?_⟩
        · rw [hcomp] at hm
          injection hm with he
          exact hene m he
        · rw [hcomp] at h
          cases h
      | ok s2 =>
        obtain ⟨hwf2, hm2, hl2, t2, ft2, ht2, hft2, htail2, hfr2, n2, hn2⟩ :=
          hrec.2 s2 hrecres
        have ht2v : t2 = s.files.length := by
          rw [ht1] at ht2
          cases ht2
          rfl
        subst ht2v
        have hft2v : ft2 =
            { canonical_path := root, included_by := s.tail_idx,
              line_num := 0, in_stack := true } := by
          rw [hfl1, List.getElem?_concat_length] at hft2
          cases hft2
          rfl
        have htail2n : s2.tail_idx = none := by
          rw [htail2, hft2v]
          rw [ht]
        have hcomp : process cfg fuel s root = .ok s2 := by
          simp [process, ht, hpush, hrecres, htail2n, Except.bind, bind]
        refine ⟨fun m hm => ?_, fun s' h => ?_⟩
        · rw [hcomp] at hm
          cases hm
        · rw [hcomp] at h
          cases h
          exact ⟨hwf2, htail2n, fun q i hq => hm2 _ _ (hm1 _ _ hq),
            le_trans hl1 hl2⟩
    | remove =>
      rcases hcase with ⟨hinl', -, -, -, -, -⟩ | ⟨-, ht1, hfl1, hkf1⟩
      · cases hinl'
      have ht1n : s1.tail_idx = none := by rw [ht1, ht]
      have hcomp : process cfg fuel s root = .ok s1 := by
        simp [process, ht, hpush, ht1n, Except.bind, bind, Except.pure, pure]
      refine ⟨fun m hm => ?_, fun s' h => ?_⟩
      · rw [hcomp] at hm
        cases hm
      · rw [hcomp] at h
        cases h
        exact ⟨hwf1, ht1n, hm1, hl1⟩
    | leave =>
      rcases hcase with ⟨hinl', -, -, -, -, -⟩ | ⟨-, ht1, hfl1, hkf1⟩
      · cases hinl'
      have ht1n : s1.tail_idx = none := by rw [ht1, ht]
      have hcomp : process cfg fuel s root = .ok s1 := by
        simp [process, ht, hpush, ht1n, Except.bind, bind, Except.pure, pure]
      refine ⟨fun m hm => ?_, fun s' h => ?_⟩
      · rw [hcomp] at hm
        cases hm
      · rw [hcomp] at h
        cases h
        exact ⟨hwf1, ht1n, hm1, hl1⟩

-- Run-level specification: starting from the fresh state, the driver loop
-- never hits a panic, and between the sequential process() calls the state is
-- well-formed with an empty traversal stack.
theorem runFold_spec (cfg : Config) (fuel : Nat) :
    ∀ (roots : List String) (s : ProcState), WF s → s.tail_idx = none →
    (∀ m, List.foldlM (fun s r => process cfg fuel s r) s roots ≠
      .error (.bug m)) ∧
    (∀ s', List.foldlM (fun s r => process cfg fuel s r) s roots = .ok s' →
      WF s' ∧ s'.tail_idx = none ∧ KnownMono s s') := by
  intro roots
  induction roots with
  | nil =>
    intro s hwf ht
    refine ⟨fun m hm => ?_, fun s' h => ?_⟩
    · simp [List.foldlM, pure, Except.pure] at hm
    · simp [List.foldlM, pure, Except.pure] at h
      subst h
      exact ⟨hwf, ht, fun q i hq => hq⟩
  | cons r rs ih =>
    intro s hwf ht
    obtain ⟨hnb, hok⟩ := process_spec cfg fuel s r hwf ht
    cases hp : process cfg fuel s r with
    | error e =>
      have hene : ∀ m, e ≠ .bug m := fun m he => hnb m (by rw [hp, he])
      have hcomp : List.foldlM (fun s r => process cfg fuel s r) s (r :: rs) =
          .error e := by
        simp [List.foldlM_cons, hp, Except.bind, bind]
      refine ⟨fun m hm => ?_, fun s' h => ?_⟩
      · rw [hcomp] at hm
        injection hm with he
        exact hene m he
      · rw [hcomp] at h
        cases h
    | ok s1 =>
      obtain ⟨hwf1, ht1, hm1, hl1⟩ := hok s1 hp
      have hcomp : List.foldlM (fun s r => process cfg fuel s r) s (r :: rs) =
          List.foldlM (fun s r => process cfg fuel s r) s1 rs := by
        simp [List.foldlM_cons, hp, Except.bind, bind]
      obtain ⟨hnb', hok'⟩ := ih s1 hwf1 ht1
      refine ⟨fun m hm => hnb' m (by rw [← hcomp]; exact hm), fun s' h => ?_⟩
      rw [hcomp] at h
      obtain ⟨hwf', ht', hm'⟩ := hok' s' h
      exact ⟨hwf', ht', fun q i hq => hm' _ _ (hm1 _ _ hq)⟩

-- Counting lemmas for the unvisited measure.

theorem filter_length_mono {α : Type} (l : List α) (p q : α → Bool)
    (h : ∀ x ∈ l, p x = true → q x = true) :
    (l.filter p).length ≤ (l.filter q).length := by
  induction l with
  | nil => simp
  | cons x l ih =>
    have ih' := ih (fun y hy => h y (by simp [hy]))
    by_cases hp : p x = true
    · have hq := h x (by simp) hp
      simp only [List.filter_cons, hp, hq, if_true]
      simpa using ih'
    · have hp' : p x = false := by simpa using hp
      by_cases hq : q x = true
      · simp only [List.filter_cons, hp', hq, if_true, Bool.false_eq_true, if_false]
        calc (l.filter p).length ≤ (l.filter q).length := ih'
          _ ≤ (x :: l.filter q).length := by simp
      · have hq' : q x = false := by simpa using hq
        simp only [List.filter_cons, hp', hq', Bool.false_eq_true, if_false]
        exact ih'

theorem filter_length_strict {α : Type} (l : List α) (p q : α → Bool) (a : α)
    (ha : a ∈ l) (hqa : q a = true) (hpa : p a = false)
    (h : ∀ x ∈ l, p x = true → q x = true) :
    (l.filter p).length < (l.filter q).length := by
  induction l with
  | nil => cases ha
  | cons x l ih =>
    have hmono := filter_length_mono l p q (fun y hy => h y (by simp [hy]))
    rcases List.mem_cons.mp ha with hax | hal
    · subst hax
      simp only [List.filter_cons, hpa, hqa, if_true, Bool.false_eq_true, if_false,
        List.length_cons]
      omega
    · have ih' := ih hal (fun y hy => h y (by simp [hy]))
      by_cases hp : p x = true
      · have hq := h x (by simp) hp
        simp only [List.filter_cons, hp, hq, if_true]
        simpa using ih'
      · have hp' : p x = false := by simpa using hp
        by_cases hq : q x = true
        · simp only [List.filter_cons, hp', hq, if_true, Bool.false_eq_true, if_false]
          calc (l.filter p).length < (l.filter q).length := ih'
            _ ≤ (x :: l.filter q).length := by simp
        · have hq' : q x = false := by simpa using hq
          simp only [List.filter_cons, hp', hq', Bool.false_eq_true, if_false]
          exact ih'

theorem unvisited_mono {cfg : Config} {s s' : ProcState} (h : KnownMono s s') :
    unvisitedCount cfg s' ≤ unvisitedCount cfg s := by
  unfold unvisitedCount
  refine filter_length_mono _ _ _ ?_
  intro p hp hnone
  cases hc : lookupKnown s.known_files p with
  | none => simp
  | some i =>
    rw [h p i hc] at hnone
    simp at hnone

theorem unvisited_strict {cfg : Config} {s s' : ProcState} (h : KnownMono s s')
    {p : String} (hp : p ∈ cfg.fs.map Prod.fst)
    (hnone : lookupKnown s.known_files p = none)
    {i : Nat} (hsome : lookupKnown s'.known_files p = some i) :
    unvisitedCount cfg s' < unvisitedCount cfg s := by
  unfold unvisitedCount
  refine filter_length_strict _ _ _ p hp (by simp [hnone]) (by simp [hsome]) ?_
  intro q hq hnone'
  cases hc : lookupKnown s.known_files q with
  | none => simp
  | some j =>
    rw [h q j hc] at hnone'
    simp at hnone'

theorem unvisited_le_length (cfg : Config) (s : ProcState) :
    unvisitedCount cfg s ≤ cfg.fs.length := by
  unfold unvisitedCount
  calc ((cfg.fs.map Prod.fst).filter _).length
      ≤ (cfg.fs.map Prod.fst).length := List.length_filter_le _ _
    _ = cfg.fs.length := List.length_map _ _

-- Failures of the cycle walk are always panics, never fuel exhaustion.
theorem collectCycleAux_error_bug {files : List FileState} {target : Nat} :
    ∀ {fuel cur : Nat} {acc : List String} {e : Failure},
    collectCycleAux files target fuel cur acc = .error e → ∃ m, e = .bug m := by
  intro fuel
  induction fuel with
  | zero =>
    intro cur acc e h
    unfold collectCycleAux at h
    cases h
    exact ⟨_, rfl⟩
  | succ n ih =>
    intro cur acc e h
    unfold collectCycleAux at h
    by_cases hct : cur = target
    · rw [if_pos hct] at h
      cases h
    · rw [if_neg hct] at h
      cases hfc : files[cur]? with
      | none =>
        simp only [hfc] at h
        cases h
        exact ⟨_, rfl⟩
      | some f =>
        simp only [hfc] at h
        cases hincl : f.included_by with
        | none =>
          simp only [hincl] at h
          cases h
          exact ⟨_, rfl⟩
        | some nxt =>
          simp only [hincl] at h
          cases hfn : files[nxt]? with
          | none =>
            simp only [hfn] at h
            cases h
            exact ⟨_, rfl⟩
          | some g =>
            simp only [hfn] at h
            exact ih h

theorem pushToStack_no_oof (cfg : Config) (s : ProcState) (p : String) :
    pushToStack cfg s p ≠ .error .outOfFuel := by
  intro h
  unfold pushToStack at h
  cases hlook : lookupKnown s.known_files p with
  | none => simp [hlook] at h
  | some idx =>
    simp only [hlook] at h
    cases hfi : s.files[idx]? with
    | none => simp [hfi] at h
    | some f =>
      simp only [hfi] at h
      by_cases hin : f.in_stack = true
      · simp only [hin, if_true] at h
        cases ht : s.tail_idx with
        | none => simp [ht] at h
        | some t =>
          simp only [ht] at h
          cases htf : s.files[t]? with
          | none => simp [htf] at h
          | some tf =>
            simp only [htf] at h
            cases hcy : collectCycleAux s.files idx (s.files.length + 1) t
                [tf.canonical_path] with
            | error e =>
              obtain ⟨m, hm⟩ := collectCycleAux_error_bug hcy
              subst hm
              simp [hcy, Except.bind, bind] at h
            | ok cycle =>
              cases hcyc : cfg.opts.cyclic_include <;>
                simp [hcy, hcyc, errorHandlingHandle, Except.bind, bind] at h
      · simp [hin] at h

theorem outputCopiedLine_no_oof (s : ProcState) (line : String) :
    outputCopiedLine s line ≠ .error .outOfFuel := by
  intro h
  unfold outputCopiedLine at h
  cases he : s.expected_line with
  | none => simp [he] at h
  | some expected =>
    simp only [he] at h
    cases ht : s.tail_idx with
    | none => simp [ht] at h
    | some t =>
      simp only [ht] at h
      cases hf : s.files[t]? with
      | none => simp [hf] at h
      | some f =>
        simp only [hf] at h
        by_cases hcur : ({ file_idx := some t, num := f.line_num } : LineRef) ≠ expected
        · simp [if_pos hcur] at h
        · simp [if_neg hcur] at h

theorem rec_fuel_zero {cfg : Config} : RecFuel cfg 0 := by
  intro s hwf hfuel
  omega

theorem inc_fuel_of_rec {cfg : Config} {fuel : Nat} (hrec : RecFuel cfg fuel) :
    IncFuel cfg fuel := by
  intro s r dir hwf hlen hfuel
  have hnlt : ¬ r.length < 3 := by omega
  cases hshape : refShape r with
  | none =>
    intro hm
    rw [show processInclude cfg fuel s r dir = .ok (true, s) from by
      simp [processInclude, hnlt, hshape]] at hm
    cases hm
  | some is_system =>
    cases hres : (if is_system then cfg.resolveSystem (String.mk (r.tail.dropLast))
                  else cfg.resolveQuote (String.mk (r.tail.dropLast)) dir) with
    | none =>
      intro hm
      cases hh : (if is_system then cfg.opts.unresolvable_system_include
                  else cfg.opts.unresolvable_quote_include) with
      | error =>
        rw [show processInclude cfg fuel s r dir =
            .error (.fatal ("Could not resolve " ++ String.mk r)) from by
          simp [processInclude, hnlt, hshape, hres, hh, errorHandlingHandle,
            Except.bind, bind]] at hm
        cases hm
      | warn =>
        rw [show processInclude cfg fuel s r dir =
            .ok (true, { s with warnings :=
              s.warnings ++ ["Could not resolve " ++ String.mk r] }) from by
          simp [processInclude, hnlt, hshape, hres, hh, errorHandlingHandle,
            Except.bind, bind]] at hm
        cases hm
      | ignore =>
        rw [show processInclude cfg fuel s r dir = .ok (true, s) from by
          simp [processInclude, hnlt, hshape, hres, hh, errorHandlingHandle,
            Except.bind, bind]] at hm
        cases hm
    | some resolved =>
      by_cases hinl : cfg.shouldInline resolved is_system = true
      · cases hpush : pushToStack cfg s resolved with
        | error e =>
          intro hm
          rw [show processInclude cfg fuel s r dir = .error e from by
            simp [processInclude, hnlt, hshape, hres, hinl, hpush,
              Except.bind, bind]] at hm
          cases hm
          exact pushToStack_no_oof cfg s resolved hpush
        | ok pr =>
          obtain ⟨h1, s1⟩ := pr
          obtain ⟨hwf1, hm1, hl1, hexp1, hout1, hcase⟩ :=
            (pushToStack_spec cfg s resolved hwf).2 h1 s1 hpush
          cases h1 with
          | inline =>
            rcases hcase with ⟨-, hlook, ht1, hkf1, hfl1, hw1⟩ | ⟨hne, -, -, -⟩
            swap
            · exact absurd rfl hne
            intro hm
            cases hrecres : processRecursively cfg fuel s1 with
            | error e2 =>
              rw [show processInclude cfg fuel s r dir = .error e2 from by
                simp [processInclude, hnlt, hshape, hres, hinl, hpush, hrecres,
                  Except.bind, bind]] at hm
              cases hm
              by_cases hmem : resolved ∈ cfg.fs.map Prod.fst
              · have hlookup1 : lookupKnown s1.known_files resolved =
                    some s.files.length := by
                  rw [hkf1, lookupKnown_cons]
                  simp
                have hstrict := unvisited_strict hm1 hmem hlook hlookup1
                exact hrec s1 hwf1 (by omega) hrecres
              · have hfposv : 1 ≤ fuel := by omega
                cases fuel with
                | zero => omega
                | succ g =>
                  have hft1 : s1.files[s.files.length]? =
                      some { canonical_path := resolved, included_by := s.tail_idx,
                             line_num := 0, in_stack := true } := by
                    rw [hfl1, List.getElem?_concat_length]
                  cases hpd : cfg.parentDir resolved with
                  | none =>
                    rw [show processRecursively cfg (g + 1) s1 =
                        .error (.fatal "Processed file has no parent directory") from by
                      simp [processRecursively, ht1, hft1, hpd]] at hrecres
                    cases hrecres
                  | some d2 =>
                    rw [show processRecursively cfg (g + 1) s1 =
                        .error (.fatal ("Failed to open file " ++ resolved)) from by
                      simp [processRecursively, ht1, hft1, hpd,
                        lookupFS_none_of_not_mem hmem]] at hrecres
                    cases hrecres
            | ok s2 =>
              rw [show processInclude cfg fuel s r dir = .ok (false, s2) from by
                simp [processInclude, hnlt, hshape, hres, hinl, hpush, hrecres,
                  Except.bind, bind]] at hm
              cases hm
          | remove =>
            intro hm
            rw [show processInclude cfg fuel s r dir = .ok (false, s1) from by
              simp [processInclude, hnlt, hshape, hres, hinl, hpush,
                Except.bind, bind]] at hm
            cases hm
          | leave =>
            intro hm
            rw [show processInclude cfg fuel s r dir = .ok (true, s1) from by
              simp [processInclude, hnlt, hshape, hres, hinl, hpush,
                Except.bind, bind]] at hm
            cases hm
      · intro hm
        rw [show processInclude cfg fuel s r dir = .ok (true, s) from by
          simp [processInclude, hnlt, hshape, hres, hinl]] at hm
        cases hm

theorem unvisited_congr {cfg : Config} {s s' : ProcState}
    (h : s'.known_files = s.known_files) :
    unvisitedCount cfg s' = unvisitedCount cfg s := by
  unfold unvisitedCount
  rw [h]

theorem lines_fuel_of_inc {cfg : Config} {fuel : Nat} (hincf : IncFuel cfg fuel) :
    LinesFuel cfg fuel := by
  intro dir lines
  induction lines with
  | nil =>
    intro s hwf hfuel hm
    rw [show processLines cfg fuel dir [] s = .ok s from by simp [processLines]] at hm
    cases hm
  | cons line rest ih =>
    intro s hwf hfuel hm
    cases ht : s.tail_idx with
    | none =>
      rw [show processLines cfg fuel dir (line :: rest) s =
          .error (.bug "index out of bounds") from by simp [processLines, ht]] at hm
      cases hm
    | some t =>
      have htlen : t < s.files.length := hwf.tailLt _ ht
      cases hf : s.files[t]? with
      | none =>
        rw [show processLines cfg fuel dir (line :: rest) s =
            .error (.bug "index out of bounds") from by
          simp [processLines, ht, hf]] at hm
        cases hm
      | some f =>
        set s1 : ProcState :=
          { s with files := s.files.set t { f with line_num := f.line_num + 1 } }
          with hs1
        have hwf1 : WF s1 := hwf.set_line_num hf _
        have hunv1 : unvisitedCount cfg s1 = unvisitedCount cfg s := rfl
        by_cases hpragma : pragmaOnceMatch line.toList = true
        · have hprag2 : pragmaOnceMatch line.data = true := hpragma
          rw [show processLines cfg fuel dir (line :: rest) s =
              processLines cfg fuel dir rest s1 from by
            simp [processLines, ht, hf, hprag2, hs1]] at hm
          exact ih s1 hwf1 (by omega) hm
        · have hprag2 : pragmaOnceMatch line.data = false := by simpa using hpragma
          cases hcap : includeCapture line.toList with
          | none =>
            have hcap2 : includeCapture line.data = none := hcap
            cases hout : outputCopiedLine s1 line with
            | error e =>
              have hnoof := outputCopiedLine_no_oof s1 line
              rw [hs1] at hout
              simp only [ht] at hout
              rw [show processLines cfg fuel dir (line :: rest) s = .error e from by
                simp [processLines, ht, hf, hprag2, hcap2, hout,
                  Except.bind, bind]] at hm
              cases hm
              apply hnoof
              rw [hs1]
              simp only [ht]
              exact hout
            | ok s3 =>
              have hosp := outputCopiedLine_spec s1 line (t := t)
                (f := { f with line_num := f.line_num + 1 })
                (by rw [show s1.tail_idx = s.tail_idx from rfl]; exact ht)
                (by show (s.files.set t { f with line_num := f.line_num + 1 })[t]? = _;
                    simp [List.getElem?_set, htlen])
              obtain ⟨hfl3, hkf3, ht3, hw3⟩ := hosp.2 s3 hout
              have hwf3 : WF s3 := hwf1.congr hfl3 hkf3 ht3
              have hunv3 : unvisitedCount cfg s3 = unvisitedCount cfg s1 :=
                unvisited_congr hkf3
              rw [hs1] at hout
              simp only [ht] at hout
              rw [show processLines cfg fuel dir (line :: rest) s =
                  processLines cfg fuel dir rest s3 from by
                simp [processLines, ht, hf, hprag2, hcap2, hout,
                  Except.bind, bind]] at hm
              exact ih s3 hwf3 (by omega) hm
          | some cap =>
            have hcap2 : includeCapture line.data = some cap := hcap
            have hlen3 := includeCapture_three_le hcap
            cases hires : processInclude cfg fuel s1 cap dir with
            | error e =>
              have hnoof := hincf s1 cap dir hwf1 hlen3 (by omega)
              rw [hs1] at hires
              simp only [ht] at hires
              rw [show processLines cfg fuel dir (line :: rest) s = .error e from by
                simp [processLines, ht, hf, hprag2, hcap2, hires,
                  Except.bind, bind]] at hm
              cases hm
              apply hnoof
              rw [hs1]
              simp only [ht]
              exact hires
            | ok pr =>
              obtain ⟨keep, s2⟩ := pr
              have hie : IncEnsures s1 s2 :=
                ((traversalSpec cfg fuel).2.1 s1 cap dir hwf1 hlen3).2 keep s2 hires
              obtain ⟨hwf2, hm2, hl2, ht2, hfr2⟩ := hie
              have hunv2 : unvisitedCount cfg s2 ≤ unvisitedCount cfg s1 :=
                unvisited_mono hm2
              rw [hs1] at hires
              simp only [ht] at hires
              cases keep with
              | false =>
                rw [show processLines cfg fuel dir (line :: rest) s =
                    processLines cfg fuel dir rest s2 from by
                  simp [processLines, ht, hf, hprag2, hcap2, hires,
                    Except.bind, bind]] at hm
                exact ih s2 hwf2 (by omega) hm
              | true =>
                have hft2 : s2.files[t]? = some { f with line_num := f.line_num + 1 } := by
                  rw [hfr2 t (by simp [hs1]; omega)]
                  show (s.files.set t { f with line_num := f.line_num + 1 })[t]? = _
                  simp [List.getElem?_set, htlen]
                cases hout : outputCopiedLine s2 line with
                | error e =>
                  have hnoof := outputCopiedLine_no_oof s2 line
                  rw [show processLines cfg fuel dir (line :: rest) s = .error e from by
                    simp [processLines, ht, hf, hprag2, hcap2, hires, hout,
                      Except.bind, bind]] at hm
                  cases hm
                  exact hnoof hout
                | ok s3 =>
                  have hosp := outputCopiedLine_spec s2 line (t := t)
                    (f := { f with line_num := f.line_num + 1 })
                    (by rw [ht2]; show s1.tail_idx = some t; exact ht) hft2
                  obtain ⟨hfl3, hkf3, ht3, hw3⟩ := hosp.2 s3 hout
                  have hwf3 : WF s3 := hwf2.congr hfl3 hkf3 ht3
                  have hunv3 : unvisitedCount cfg s3 = unvisitedCount cfg s2 :=
                    unvisited_congr hkf3
                  rw [show processLines cfg fuel dir (line :: rest) s =
                      processLines cfg fuel dir rest s3 from by
                    simp [processLines, ht, hf, hprag2, hcap2, hires, hout,
                      Except.bind, bind]] at hm
                  exact ih s3 hwf3 (by omega) hm

theorem rec_fuel_succ {cfg : Config} {fuel : Nat} (hlines : LinesFuel cfg fuel) :
    RecFuel cfg (fuel + 1) := by
  intro s hwf hfuel hm
  cases ht : s.tail_idx with
  | none =>
    rw [show processRecursively cfg (fuel + 1) s =
        .error (.bug "index out of bounds") from by simp [processRecursively, ht]] at hm
    cases hm
  | some t =>
    cases hf : s.files[t]? with
    | none =>
      rw [show processRecursively cfg (fuel + 1) s =
          .error (.bug "index out of bounds") from by
        simp [processRecursively, ht, hf]] at hm
      cases hm
    | some f =>
      cases hpd : cfg.parentDir f.canonical_path with
      | none =>
        rw [show processRecursively cfg (fuel + 1) s =
            .error (.fatal "Processed file has no parent directory") from by
          simp [processRecursively, ht, hf, hpd]] at hm
        cases hm
      | some dir =>
        cases hfs : lookupFS cfg.fs f.canonical_path with
        | none =>
          rw [show processRecursively cfg (fuel + 1) s =
              .error (.fatal ("Failed to open file " ++ f.canonical_path)) from by
            simp [processRecursively, ht, hf, hpd, hfs]] at hm
          cases hm
        | some content =>
          cases hlres : processLines cfg fuel dir content s with
          | error e =>
            rw [show processRecursively cfg (fuel + 1) s = .error e from by
              simp [processRecursively, ht, hf, hpd, hfs, hlres,
                Except.bind, bind]] at hm
            cases hm
            exact hlines dir content s hwf (by omega) hlres
          | ok s1 =>
            cases ht1 : s1.tail_idx with
            | none =>
              rw [show processRecursively cfg (fuel + 1) s =
                  .error (.bug "index out of bounds") from by
                simp [processRecursively, ht, hf, hpd, hfs, hlres, ht1,
                  Except.bind, bind]] at hm
              cases hm
            | some t1 =>
              cases hf1 : s1.files[t1]? with
              | none =>
                rw [show processRecursively cfg (fuel + 1) s =
                    .error (.bug "index out of bounds") from by
                  simp [processRecursively, ht, hf, hpd, hfs, hlres, ht1, hf1,
                    Except.bind, bind]] at hm
                cases hm
              | some f1 =>
                rw [show processRecursively cfg (fuel + 1) s =
                    .ok { s1 with
                          files := s1.files.set t1 { f1 with in_stack := false },
                          tail_idx := f1.included_by } from by
                  simp [processRecursively, ht, hf, hpd, hfs, hlres, ht1, hf1,
                    Except.bind, bind]] at hm
                cases hm

-- The combined fuel induction.
theorem fuelSpec (cfg : Config) (fuel : Nat) :
    RecFuel cfg fuel ∧ IncFuel cfg fuel ∧ LinesFuel cfg fuel := by
  induction fuel with
  | zero =>
    refine ⟨rec_fuel_zero, inc_fuel_of_rec rec_fuel_zero,
      lines_fuel_of_inc (inc_fuel_of_rec rec_fuel_zero)⟩
  | succ n ih =>
    have hr := rec_fuel_succ ih.2.2
    exact ⟨hr, inc_fuel_of_rec hr, lines_fuel_of_inc (inc_fuel_of_rec hr)⟩

-- process never runs out of fuel when the fuel exceeds the number of
-- unvisited file-system entries by at least two.
theorem process_no_oof (cfg : Config) (fuel : Nat) (s : ProcState) (root : String)
    (hwf : WF s) (ht : s.tail_idx = none)
    (hfuel : unvisitedCount cfg s + 2 ≤ fuel) :
    process cfg fuel s root ≠ .error .outOfFuel := by
  intro hm
  cases hpush : pushToStack cfg s root with
  | error e =>
    rw [show process cfg fuel s root = .error e from by
      simp [process, ht, hpush, Except.bind, bind]] at hm
    cases hm
    exact pushToStack_no_oof cfg s root hpush
  | ok pr =>
    obtain ⟨h1, s1⟩ := pr
    obtain ⟨hwf1, hm1, hl1, hexp1, hout1, hcase⟩ :=
      (pushToStack_spec cfg s root hwf).2 h1 s1 hpush
    have hunv1 : unvisitedCount cfg s1 ≤ unvisitedCount cfg s := unvisited_mono hm1
    cases h1 with
    | inline =>
      cases hrecres : processRecursively cfg fuel s1 with
      | error e =>
        rw [show process cfg fuel s root = .error e from by
          simp [process, ht, hpush, hrecres, Except.bind, bind]] at hm
        cases hm
        exact (fuelSpec cfg fuel).1 s1 hwf1 (by omega) hrecres
      | ok s2 =>
        rcases hcase with ⟨-, hlook, ht1, hkf1, hfl1, hw1⟩ | ⟨hne, -, -, -⟩
        swap
        · exact absurd rfl hne
        obtain ⟨hwf2, hm2, hl2, t2, ft2, ht2, hft2, htail2, hfr2, n2, hn2⟩ :=
          ((traversalSpec cfg fuel).1 s1 hwf1 (by rw [ht1]; rfl)).2 s2 hrecres
        have ht2v : t2 = s.files.length := by
          rw [ht1] at ht2
          cases ht2
          rfl
        subst ht2v
        have hft2v : ft2 =
            { canonical_path := root, included_by := s.tail_idx,
              line_num := 0, in_stack := true } := by
          rw [hfl1, List.getElem?_concat_length] at hft2
          cases hft2
          rfl
        have htail2n : s2.tail_idx = none := by
          rw [htail2, hft2v]
          rw [ht]
        rw [show process cfg fuel s root = .ok s2 from by
          simp [process, ht, hpush, hrecres, htail2n, Except.bind, bind]] at hm
        cases hm
    | remove =>
      rcases hcase with ⟨hinl', -, -, -, -, -⟩ | ⟨-, ht1, hfl1, hkf1⟩
      · cases hinl'
      have ht1n : s1.tail_idx = none := by rw [ht1, ht]
      rw [show process cfg fuel s root = .ok s1 from by
        simp [process, ht, hpush, ht1n, Except.bind, bind, Except.pure, pure]] at hm
      cases hm
    | leave =>
      rcases hcase with ⟨hinl', -, -, -, -, -⟩ | ⟨-, ht1, hfl1, hkf1⟩
      · cases hinl'
      have ht1n : s1.tail_idx = none := by rw [ht1, ht]
      rw [show process cfg fuel s root = .ok s1 from by
        simp [process, ht, hpush, ht1n, Except.bind, bind, Except.pure, pure]] at hm
      cases hm

-- The whole run terminates: with fuel at least the number of file-system
-- entries plus two, the driver loop can never report fuel exhaustion.
theorem run_no_oof (cfg : Config) (ld : Bool) (fuel : Nat) (roots : List String)
    (hfuel : cfg.fs.length + 2 ≤ fuel) :
    run cfg ld fuel roots ≠ .error .outOfFuel := by
  unfold run
  have hgen : ∀ (rs : List String) (s : ProcState), WF s → s.tail_idx = none →
      List.foldlM (fun s r => process cfg fuel s r) s rs ≠ .error .outOfFuel := by
    intro rs
    induction rs with
    | nil =>
      intro s hwf ht hm
      simp [List.foldlM, pure, Except.pure] at hm
    | cons r rs ih =>
      intro s hwf ht hm
      have hfuel' : unvisitedCount cfg s + 2 ≤ fuel := by
        have := unvisited_le_length cfg s
        omega
      cases hp : process cfg fuel s r with
      | error e =>
        rw [show List.foldlM (fun s r => process cfg fuel s r) s (r :: rs) =
            .error e from by simp [List.foldlM_cons, hp, Except.bind, bind]] at hm
        cases hm
        exact process_no_oof cfg fuel s r hwf ht hfuel' hp
      | ok s1 =>
        obtain ⟨hwf1, ht1, hm1, hl1⟩ := (process_spec cfg fuel s r hwf ht).2 s1 hp
        rw [show List.foldlM (fun s r => process cfg fuel s r) s (r :: rs) =
            List.foldlM (fun s r => process cfg fuel s r) s1 rs from by
          simp [List.foldlM_cons, hp, Except.bind, bind]] at hm
        exact ih s1 hwf1 ht1 hm
  exact hgen roots (processorNew ld) (wf_processorNew ld) rfl

-- Lemmas for the inlining filter (src/filter.rs, src/cli.rs).

theorem matchIndicesFrom_mem_bounds (m : String → String → Bool) (path : String) :
    ∀ (gs : List GlobInfo) (i j : Nat), j ∈ matchIndicesFrom m path i gs →
      i ≤ j ∧ j < i + gs.length := by
  intro gs
  induction gs with
  | nil =>
    intro i j hj
    simp [matchIndicesFrom] at hj
  | cons g gs ih =>
    intro i j hj
    simp only [matchIndicesFrom] at hj
    by_cases hm : m g.str path = true
    · rw [if_pos hm] at hj
      rcases List.mem_cons.mp hj with hj | hj
      · subst hj
        simp
      · have := ih (i + 1) j hj
        simp
        omega
    · rw [if_neg hm] at hj
      have := ih (i + 1) j hj
      simp
      omega

theorem matchIndicesFrom_append (m : String → String → Bool) (path : String) :
    ∀ (gs1 gs2 : List GlobInfo) (i : Nat),
      matchIndicesFrom m path i (gs1 ++ gs2) =
        matchIndicesFrom m path i gs1 ++ matchIndicesFrom m path (i + gs1.length) gs2 := by
  intro gs1
  induction gs1 with
  | nil => intro gs2 i; simp [matchIndicesFrom]
  | cons g gs ih =>
    intro gs2 i
    rw [List.cons_append]
    simp only [matchIndicesFrom]
    by_cases hm : m g.str path = true
    · rw [if_pos hm, if_pos hm, ih gs2 (i + 1), List.cons_append]
      have harith : i + 1 + gs.length = i + (g :: gs).length := by
        simp
        omega
      rw [harith]
    · rw [if_neg hm, if_neg hm, ih gs2 (i + 1)]
      have harith : i + 1 + gs.length = i + (g :: gs).length := by
        simp
        omega
      rw [harith]

-- The filter decision equals the polarity of the last matching glob in merged
-- order (default: inline); this is the formal content of the matching rule.
theorem check_should_inline_eq_lastMatch (m : String → String → Bool) (path : String)
    (infos : List GlobInfo) :
    check_should_inline m path infos = lastMatchDecision m path infos := by
  induction infos using List.reverseRecOn with
  | nil => rfl
  | append_singleton gs g ih =>
    have hsplit : matchesCandidateInto m (gs ++ [g]) path =
        matchIndicesFrom m path 0 gs ++
          (if m g.str path = true then [gs.length] else []) := by
      unfold matchesCandidateInto
      rw [matchIndicesFrom_append]
      congr 1
      by_cases hm : m g.str path = true
      · simp [matchIndicesFrom, hm]
      · simp [matchIndicesFrom, hm]
    by_cases hm : m g.str path = true
    · unfold check_should_inline lastMatchDecision
      rw [hsplit, if_pos hm, List.getLast?_concat]
      simp [List.getElem?_concat_length, List.reverse_append, List.find?_cons, hm]
    · unfold check_should_inline lastMatchDecision at ih ⊢
      unfold matchesCandidateInto at ih
      rw [hsplit, if_neg hm, List.append_nil, List.reverse_append]
      rw [show (([g] : List GlobInfo).reverse ++ gs.reverse).find?
            (fun g => m g.str path) = gs.reverse.find? (fun g => m g.str path) from by
        simp [List.find?_cons, hm]]
      cases hlast : (matchIndicesFrom m path 0 gs).getLast? with
      | none =>
        rw [hlast] at ih
        exact ih
      | some idx =>
        rw [hlast] at ih
        have hmem : idx ∈ matchIndicesFrom m path 0 gs := by
          obtain ⟨hne, hx⟩ := List.mem_getLast?_eq_getLast (Option.mem_def.mpr hlast)
          subst hx
          exact List.getLast_mem hne
        have hbound := matchIndicesFrom_mem_bounds m path gs 0 idx hmem
        have hidx : ((gs ++ [g] : List GlobInfo))[idx]? = gs[idx]? :=
          List.getElem?_append_left (by omega)
        calc (Option.map GlobInfo.inverted ((gs ++ [g] : List GlobInfo))[idx]?).getD true
            = (Option.map GlobInfo.inverted gs[idx]?).getD true := by rw [hidx]
          _ = _ := ih

-- InvertibleGlob::from_str: a leading exclamation mark inverts the glob.
theorem invertibleGlobFromStr_spec (s : String) :
    (s.startsWith "!" →
      invertibleGlobFromStr s = { str := s.drop 1, inverted := true }) ∧
    (¬ s.startsWith "!" →
      invertibleGlobFromStr s = { str := s, inverted := false }) := by
  constructor
  · intro h
    simp [invertibleGlobFromStr, h]
  · intro h
    simp [invertibleGlobFromStr, h]

-- Membership in the merged command-line list.
theorem mem_mergeByCliOrder {α : Type} :
    ∀ (xs ys : List (Nat × α)) (z : Nat × α),
      z ∈ mergeByCliOrder xs ys ↔ z ∈ xs ∨ z ∈ ys := by
  intro xs
  induction xs with
  | nil =>
    intro ys z
    simp [mergeByCliOrder]
  | cons x xs ihx =>
    intro ys
    induction ys with
    | nil =>
      intro z
      simp [mergeByCliOrder]
    | cons y ys ihy =>
      intro z
      by_cases hlt : x.1 < y.1
      · rw [show mergeByCliOrder (x :: xs) (y :: ys) =
            x :: mergeByCliOrder xs (y :: ys) from by
          simp [mergeByCliOrder, hlt]]
        rw [List.mem_cons, ihx (y :: ys) z]
        simp [List.mem_cons]
        tauto
      · rw [show mergeByCliOrder (x :: xs) (y :: ys) =
            y :: mergeByCliOrder (x :: xs) ys from by
          simp [mergeByCliOrder, hlt]]
        rw [List.mem_cons, ihy z]
        simp [List.mem_cons]
        tauto

-- The merged list preserves the original command-line order: if each input
-- list is strictly ordered by original index and the indices are disjoint,
-- the merged list is strictly ordered by original index.
theorem mergeByCliOrder_pairwise {α : Type} :
    ∀ (xs ys : List (Nat × α)),
      xs.Pairwise (fun a b => a.1 < b.1) → ys.Pairwise (fun a b => a.1 < b.1) →
      (∀ p ∈ xs, ∀ q ∈ ys, p.1 ≠ q.1) →
      (mergeByCliOrder xs ys).Pairwise (fun a b => a.1 < b.1) := by
  intro xs
  induction xs with
  | nil =>
    intro ys _ hys _
    simpa [mergeByCliOrder] using hys
  | cons x xs ihx =>
    intro ys
    induction ys with
    | nil =>
      intro hxs _ _
      simpa [mergeByCliOrder] using hxs
    | cons y ys ihy =>
      intro hxs hys hdisj
      obtain ⟨hxhead, hxs'⟩ := List.pairwise_cons.mp hxs
      obtain ⟨hyhead, hys'⟩ := List.pairwise_cons.mp hys
      by_cases hlt : x.1 < y.1
      · rw [show mergeByCliOrder (x :: xs) (y :: ys) =
            x :: mergeByCliOrder xs (y :: ys) from by
          simp [mergeByCliOrder, hlt]]
        refine List.pairwise_cons.mpr ⟨?_, ?_⟩
        · intro z hz
          rcases (mem_mergeByCliOrder xs (y :: ys) z).mp hz with hz | hz
          · exact hxhead z hz
          · rcases List.mem_cons.mp hz with hz | hz
            · subst hz
              exact hlt
            · exact lt_trans hlt (hyhead z hz)
        · exact ihx (y :: ys) hxs' hys
            (fun p hp q hq => hdisj p (by simp [hp]) q hq)
      · have hne : x.1 ≠ y.1 := hdisj x (by simp) y (by simp)
        have hylt : y.1 < x.1 := by omega
        rw [show mergeByCliOrder (x :: xs) (y :: ys) =
            y :: mergeByCliOrder (x :: xs) ys from by
          simp [mergeByCliOrder, hlt]]
        refine List.pairwise_cons.mpr ⟨?_, ?_⟩
        · intro z hz
          rcases (mem_mergeByCliOrder (x :: xs) ys z).mp hz with hz | hz
          · rcases List.mem_cons.mp hz with hz | hz
            · subst hz
              exact hylt
            · exact lt_trans hylt (hxhead z hz)
          · exact hyhead z hz
        · exact ihy hxs hys' (fun p hp q hq => hdisj p hp q (by simp [hq]))

-- The one-record stack state is well-formed.
theorem wf_exStC : WF exStC := by
  refine ⟨?_, ?_, ?_, ?_, ?_, ?_⟩
  · simp [exStC]
  · intro p i hp
    simp [exStC] at hp
    obtain ⟨hp, hi⟩ := hp
    subst hp
    subst hi
    exact ⟨_, rfl, rfl⟩
  · intro i f hf
    match i with
    | 0 =>
      simp [exStC] at hf ⊢
      simp [← hf]
    | n + 1 => simp [exStC] at hf
  · intro i f j hf hj
    match i with
    | 0 =>
      simp [exStC] at hf
      rw [← hf] at hj
      simp at hj
    | n + 1 => simp [exStC] at hf
  · intro t ht
    simp [exStC] at ht
    simp [exStC, ht]
  · intro i f hf
    match i with
    | 0 =>
      simp [exStC] at hf
      subst hf
      simp [exStC]
      exact Ancestor.refl 0
    | n + 1 => simp [exStC] at hf

-- The cycle branch of push_to_stack on a well-formed state: the walk
-- succeeds, and the outcome is exactly the configured policy applied to the
-- cycle message, with the include left in place.
theorem pushToStack_cycle_eq (cfg : Config) (s : ProcState) (p : String)
    {i t : Nat} {f tf : FileState}
    (hwf : WF s)
    (hlook : lookupKnown s.known_files p = some i)
    (hf : s.files[i]? = some f) (hstk : f.in_stack = true)
    (ht : s.tail_idx = some t) (htf : s.files[t]? = some tf) :
    ∃ cycle,
      pushToStack cfg s p =
        (do
          let s' ← errorHandlingHandle cfg.opts.cyclic_include
            ("Cyclic include detected: " ++ String.intercalate " " cycle) s
          .ok (.leave, s')) := by
  obtain ⟨t', ht', hanc⟩ := (hwf.stackChar i f hf).mp hstk
  rw [ht] at ht'
  injection ht' with ht'
  subst ht'
  have htlen : t < s.files.length := hwf.tailLt t ht
  obtain ⟨cycle, hcyc⟩ :=
    collectCycleAux_ok hwf.inclLt hanc [tf.canonical_path] (s.files.length + 1)
      (by omega)
  refine ⟨cycle, ?_⟩
  simp [pushToStack, hlook, hf, hstk, ht, htf, hcyc, Except.bind, bind]

-- Stack discipline of the legacy engine (src/main.rs): the processed-file
-- stack is restored by every successful call.

theorem emitLine_stack (o : V1.Opts) (s : V1.St) (line : String) (n : Nat) :
    (V1.emitLine o s line n).stack = s.stack := by
  simp only [V1.emitLine]
  split
  · split <;> split <;> rfl
  · split <;> rfl

theorem emitBlankLines_stack (o : V1.Opts) :
    ∀ (ls : List (String × Nat)) (s : V1.St),
      (V1.emitBlankLines o s ls).stack = s.stack := by
  intro ls
  induction ls with
  | nil => intro s; rfl
  | cons x ls ih =>
    intro s
    show (V1.emitBlankLines o (V1.emitLine o s x.1 x.2) ls).stack = s.stack
    rw [ih, emitLine_stack]

theorem v1ProcessLines_stack (o : V1.Opts) (cfg : V1.Cfg) :
    ∀ (fuel : Nat) (dir : String) (lines : List String) (n : Nat)
      (deferred : List (String × Nat)) (s s' : V1.St),
      V1.v1ProcessLines o cfg fuel dir lines n deferred s = .ok s' →
      s'.stack = s.stack := by
  intro fuel
  induction fuel using Nat.strong_induction_on with
  | _ fuel ihf =>
    intro dir lines
    induction lines with
    | nil =>
      intro n deferred s s' h
      simp only [V1.v1ProcessLines] at h
      injection h with h
      subst h
      repeat' split
      all_goals simp [emitBlankLines_stack]
    | cons line rest ihl =>
      intro n deferred s s' h
      simp only [V1.v1ProcessLines, bind, Except.bind] at h
      split at h
      · exact ihl _ _ _ _ h
      · split at h
        · exact ihl _ _ _ _ h
        · split at h
          next pathChars hcap =>
            split at h
            next => cases h
            next canonical display hres =>
              split at h
              next => cases h
              next hdone => exact ihl _ _ _ _ h
              next hnone =>
                split at h
                next e heq => cases h
                next s4 heq =>
                  -- the nested visit preserves the pushed stack
                  rw [V1.v1Process.eq_def] at heq
                  split at heq
                  next => cases heq
                  next g =>
                    split at heq
                    next => cases heq
                    next cdir hdir =>
                      split at heq
                      next => cases heq
                      next content hcont =>
                        have hst4 := ihf g (by omega) _ _ _ _ _ _ heq
                        split at h
                        next => cases h
                        next parent hlast =>
                          have hcont := ihl _ _ _ _ h
                          rw [hcont]
                          simp only [hst4, List.dropLast_concat]
                          split <;> simp [emitBlankLines_stack]
          next hcapn =>
            have := ihl _ _ _ _ h
            rw [this, emitLine_stack]
            split <;> simp [emitBlankLines_stack]

theorem v1Process_stack (o : V1.Opts) (cfg : V1.Cfg) (fuel : Nat) (s s' : V1.St)
    (h : V1.v1Process o cfg fuel s = .ok s') : s'.stack = s.stack := by
  rw [V1.v1Process.eq_def] at h
  split at h
  · cases h
  · split at h
    · cases h
    · split at h
      · cases h
      · exact v1ProcessLines_stack o cfg _ _ _ _ _ _ _ h

-- The ten claims, their closed instances and the counterexamples.

theorem except_bind_ok {α β γ : Type} {x : Except γ α} {f : α → Except γ β}
    {v : β} (h : Except.bind x f = .ok v) : ∃ a, x = .ok a ∧ f a = .ok v := by
  cases x with
  | error e => simp [Except.bind] at h
  | ok a => exact ⟨a, rfl, by simpa [Except.bind] using h⟩

/-- Claim C1: a file identity is entered (inlined) exactly when it has no
record yet, and entering records it permanently; an include resolving to a
record that is no longer in-stack is dropped from the output silently,
without recursion and without any state change; and the known-files map only
grows across the remaining roots of the run, so the dedup scope spans all
roots. -/
theorem claim_C1_dedup (cfg : Config) (fuel : Nat) (s : ProcState)
    (resolved : String) (hwf : WF s) :
    (∀ (h : IncludeHandling) (s' : ProcState),
      pushToStack cfg s resolved = .ok (h, s') →
      ((h = .inline ↔ lookupKnown s.known_files resolved = none) ∧
       (h = .inline →
         lookupKnown s'.known_files resolved = some s.files.length))) ∧
    (∀ (i : Nat) (f : FileState),
      lookupKnown s.known_files resolved = some i →
      s.files[i]? = some f → f.in_stack = false →
      pushToStack cfg s resolved = .ok (.remove, s)) ∧
    (∀ (r : List Char) (dir : String) (is_system : Bool) (i : Nat)
        (f : FileState),
      3 ≤ r.length → refShape r = some is_system →
      (if is_system then cfg.resolveSystem (String.mk ((r.drop 1).dropLast))
       else cfg.resolveQuote (String.mk ((r.drop 1).dropLast)) dir) =
        some resolved →
      cfg.shouldInline resolved is_system = true →
      lookupKnown s.known_files resolved = some i →
      s.files[i]? = some f → f.in_stack = false →
      processInclude cfg fuel s r dir = .ok (false, s)) ∧
    (∀ (roots : List String) (s' : ProcState), s.tail_idx = none →
      List.foldlM (fun s r => process cfg fuel s r) s roots = .ok s' →
      KnownMono s s') := by
  have hremove : ∀ (i : Nat) (f : FileState),
      lookupKnown s.known_files resolved = some i →
      s.files[i]? = some f → f.in_stack = false →
      pushToStack cfg s resolved = .ok (.remove, s) := by
    intro i f hlook hf hstk
    simp [pushToStack, hlook, hf, hstk]
  refine ⟨?_, hremove, ?_, ?_⟩
  · intro h s' hok
    cases hlook : lookupKnown s.known_files resolved with
    | none =>
      simp [pushToStack, hlook] at hok
      obtain ⟨hh, hs'⟩ := hok
      subst hh
      refine ⟨by simp, fun _ => ?_⟩
      rw [← hs']
      simp [lookupKnown_cons]
    | some i =>
      rcases ((pushToStack_spec cfg s resolved hwf).2 h s' hok).2.2.2.2.2 with
        ⟨-, hl, -⟩ | ⟨hne, -⟩
      · rw [hlook] at hl
        cases hl
      · exact ⟨⟨fun hh => absurd hh hne,
          fun hn => absurd hn (by simp)⟩,
          fun hh => absurd hh hne⟩
  · intro r dir is_system i f h3 hshape hres hinl hlook hf hstk
    have hlt : ¬ r.length < 3 := by omega
    simp only [List.drop_one] at hres
    simp [processInclude, hlt, hshape, hres, hinl,
      hremove i f hlook hf hstk, Except.bind, bind]
  · intro roots s' htail hfold
    exact ((runFold_spec cfg fuel roots s hwf htail).2 s' hfold).2.2

theorem claim_C1_witness :
    WF (processorNew false) ∧
    ((∀ (h : IncludeHandling) (s' : ProcState),
      pushToStack cfgOnce (processorNew false) "/d/b.hpp" = .ok (h, s') →
      ((h = .inline ↔
          lookupKnown (processorNew false).known_files "/d/b.hpp" = none) ∧
       (h = .inline →
         lookupKnown s'.known_files "/d/b.hpp" =
           some (processorNew false).files.length))) ∧
    (∀ (i : Nat) (f : FileState),
      lookupKnown (processorNew false).known_files "/d/b.hpp" = some i →
      (processorNew false).files[i]? = some f → f.in_stack = false →
      pushToStack cfgOnce (processorNew false) "/d/b.hpp" =
        .ok (.remove, processorNew false)) ∧
    (∀ (r : List Char) (dir : String) (is_system : Bool) (i : Nat)
        (f : FileState),
      3 ≤ r.length → refShape r = some is_system →
      (if is_system then cfgOnce.resolveSystem (String.mk ((r.drop 1).dropLast))
       else cfgOnce.resolveQuote (String.mk ((r.drop 1).dropLast)) dir) =
        some "/d/b.hpp" →
      cfgOnce.shouldInline "/d/b.hpp" is_system = true →
      lookupKnown (processorNew false).known_files "/d/b.hpp" = some i →
      (processorNew false).files[i]? = some f → f.in_stack = false →
      processInclude cfgOnce 10 (processorNew false) r dir =
        .ok (false, processorNew false)) ∧
    (∀ (roots : List String) (s' : ProcState),
      (processorNew false).tail_idx = none →
      List.foldlM (fun s r => process cfgOnce 10 s r)
        (processorNew false) roots = .ok s' →
      KnownMono (processorNew false) s')) :=
  ⟨wf_processorNew false,
   claim_C1_dedup cfgOnce 10 (processorNew false) "/d/b.hpp"
     (wf_processorNew false)⟩

/-- Claim C2: with fuel beyond the number of file-system entries the traversal
never exhausts it (termination); an include resolving to an in-stack record
is never re-entered: push_to_stack answers Leave, detection happening before
re-entry; at the detection point the Error policy fails the run while Warn
and Ignore continue; and a Leave answer makes process_include keep the
include line as literal text without recursing. -/
theorem claim_C2_cycle_termination (cfg : Config) (ld : Bool) (fuel : Nat)
    (roots : List String) (hfuel : cfg.fs.length + 2 ≤ fuel) :
    run cfg ld fuel roots ≠ .error .outOfFuel ∧
    (∀ (s : ProcState) (p : String) (i : Nat) (f : FileState)
        (h : IncludeHandling) (s' : ProcState),
      lookupKnown s.known_files p = some i →
      s.files[i]? = some f → f.in_stack = true →
      pushToStack cfg s p = .ok (h, s') → h = .leave) ∧
    (∀ (s : ProcState) (p : String) (i t : Nat) (f tf : FileState),
      WF s →
      lookupKnown s.known_files p = some i →
      s.files[i]? = some f → f.in_stack = true →
      s.tail_idx = some t → s.files[t]? = some tf →
      ((cfg.opts.cyclic_include = .error →
         ∃ msg, pushToStack cfg s p = .error (.fatal msg)) ∧
       (cfg.opts.cyclic_include = .warn →
         ∃ msg, pushToStack cfg s p =
           .ok (.leave, { s with warnings := s.warnings ++ [msg] })) ∧
       (cfg.opts.cyclic_include = .ignore →
         pushToStack cfg s p = .ok (.leave, s)))) ∧
    (∀ (fuel2 : Nat) (s : ProcState) (r : List Char) (dir : String)
        (is_system : Bool) (resolved : String) (s1 : ProcState),
      3 ≤ r.length → refShape r = some is_system →
      (if is_system then cfg.resolveSystem (String.mk ((r.drop 1).dropLast))
       else cfg.resolveQuote (String.mk ((r.drop 1).dropLast)) dir) =
        some resolved →
      cfg.shouldInline resolved is_system = true →
      pushToStack cfg s resolved = .ok (.leave, s1) →
      processInclude cfg fuel2 s r dir = .ok (true, s1)) := by
  refine ⟨run_no_oof cfg ld fuel roots hfuel, ?_, ?_, ?_⟩
  · intro s p i f h s' hlook hf hstk hok
    simp only [pushToStack, hlook, hf, hstk, if_true] at hok
    split at hok
    · cases hok
    · split at hok
      · cases hok
      · obtain ⟨cycle, hcyc, h2⟩ := except_bind_ok hok
        obtain ⟨s2, hehh, hfin⟩ := except_bind_ok h2
        injection hfin with hfin
        injection hfin with hh hs
        exact hh.symm
  · intro s p i t f tf hwf hlook hf hstk ht htf
    obtain ⟨cycle, heq⟩ :=
      pushToStack_cycle_eq cfg s p hwf hlook hf hstk ht htf
    refine ⟨fun hpol => ?_, fun hpol => ?_, fun hpol => ?_⟩
    · refine ⟨"Cyclic include detected: " ++ String.intercalate " " cycle, ?_⟩
      rw [heq]
      simp [errorHandlingHandle, hpol, Except.bind, bind]
    · refine ⟨"Cyclic include detected: " ++ String.intercalate " " cycle, ?_⟩
      rw [heq]
      simp [errorHandlingHandle, hpol, Except.bind, bind]
    · rw [heq]
      simp [errorHandlingHandle, hpol, Except.bind, bind]
  · intro fuel2 s r dir is_system resolved s1 h3 hshape hres hinl hpush
    have hlt : ¬ r.length < 3 := by omega
    simp only [List.drop_one] at hres
    simp [processInclude, hlt, hshape, hres, hinl, hpush, Except.bind, bind]

theorem claim_C2_witness :
    (cfgCyc .warn).fs.length + 2 ≤ 10 ∧
    (run (cfgCyc .warn) false 10 ["/r/root.cpp"] ≠ .error .outOfFuel ∧
    (∀ (s : ProcState) (p : String) (i : Nat) (f : FileState)
        (h : IncludeHandling) (s' : ProcState),
      lookupKnown s.known_files p = some i →
      s.files[i]? = some f → f.in_stack = true →
      pushToStack (cfgCyc .warn) s p = .ok (h, s') → h = .leave) ∧
    (∀ (s : ProcState) (p : String) (i t : Nat) (f tf : FileState),
      WF s →
      lookupKnown s.known_files p = some i →
      s.files[i]? = some f → f.in_stack = true →
      s.tail_idx = some t → s.files[t]? = some tf →
      (((cfgCyc .warn).opts.cyclic_include = .error →
         ∃ msg, pushToStack (cfgCyc .warn) s p = .error (.fatal msg)) ∧
       ((cfgCyc .warn).opts.cyclic_include = .warn →
         ∃ msg, pushToStack (cfgCyc .warn) s p =
           .ok (.leave, { s with warnings := s.warnings ++ [msg] })) ∧
       ((cfgCyc .warn).opts.cyclic_include = .ignore →
         pushToStack (cfgCyc .warn) s p = .ok (.leave, s)))) ∧
    (∀ (fuel2 : Nat) (s : ProcState) (r : List Char) (dir : String)
        (is_system : Bool) (resolved : String) (s1 : ProcState),
      3 ≤ r.length → refShape r = some is_system →
      (if is_system then (cfgCyc .warn).resolveSystem
          (String.mk ((r.drop 1).dropLast))
       else (cfgCyc .warn).resolveQuote
          (String.mk ((r.drop 1).dropLast)) dir) = some resolved →
      (cfgCyc .warn).shouldInline resolved is_system = true →
      pushToStack (cfgCyc .warn) s resolved = .ok (.leave, s1) →
      processInclude (cfgCyc .warn) fuel2 s r dir = .ok (true, s1))) :=
  ⟨by decide,
   claim_C2_cycle_termination (cfgCyc .warn) false 10 ["/r/root.cpp"]
     (by decide)⟩

/-- Claim C3 (corrected): under the cyclic-include policy Ignore, an include
that resolves to an in-stack record is not recursed into and nothing is
logged, but the include line is kept in the output verbatim (process_include
answers keep = true with the state unchanged), not dropped. -/
theorem claim_C3_cyclic_ignore (cfg : Config) (fuel : Nat) (s : ProcState)
    (p : String) (i t : Nat) (f tf : FileState)
    (hpol : cfg.opts.cyclic_include = .ignore)
    (hwf : WF s)
    (hlook : lookupKnown s.known_files p = some i)
    (hf : s.files[i]? = some f) (hstk : f.in_stack = true)
    (ht : s.tail_idx = some t) (htf : s.files[t]? = some tf) :
    pushToStack cfg s p = .ok (.leave, s) ∧
    (∀ (r : List Char) (dir : String) (is_system : Bool),
      3 ≤ r.length → refShape r = some is_system →
      (if is_system then cfg.resolveSystem (String.mk ((r.drop 1).dropLast))
       else cfg.resolveQuote (String.mk ((r.drop 1).dropLast)) dir) = some p →
      cfg.shouldInline p is_system = true →
      processInclude cfg fuel s r dir = .ok (true, s)) := by
  obtain ⟨cycle, heq⟩ :=
    pushToStack_cycle_eq cfg s p hwf hlook hf hstk ht htf
  have hpush : pushToStack cfg s p = .ok (.leave, s) := by
    rw [heq]
    simp [errorHandlingHandle, hpol, Except.bind, bind]
  refine ⟨hpush, ?_⟩
  intro r dir is_system h3 hshape hres hinl
  have hlt : ¬ r.length < 3 := by omega
  simp only [List.drop_one] at hres
  simp [processInclude, hlt, hshape, hres, hinl, hpush, Except.bind, bind]

theorem claim_C3_witness :
    (cfgCyc .ignore).opts.cyclic_include = .ignore ∧
    WF exStC ∧
    lookupKnown exStC.known_files "/r/root.cpp" = some 0 ∧
    exStC.files[0]? = some { canonical_path := "/r/root.cpp",
                             included_by := none, line_num := 1,
                             in_stack := true } ∧
    ({ canonical_path := "/r/root.cpp", included_by := none, line_num := 1,
       in_stack := true } : FileState).in_stack = true ∧
    exStC.tail_idx = some 0 ∧
    (pushToStack (cfgCyc .ignore) exStC "/r/root.cpp" = .ok (.leave, exStC) ∧
    (∀ (r : List Char) (dir : String) (is_system : Bool),
      3 ≤ r.length → refShape r = some is_system →
      (if is_system then (cfgCyc .ignore).resolveSystem
          (String.mk ((r.drop 1).dropLast))
       else (cfgCyc .ignore).resolveQuote
          (String.mk ((r.drop 1).dropLast)) dir) = some "/r/root.cpp" →
      (cfgCyc .ignore).shouldInline "/r/root.cpp" is_system = true →
      processInclude (cfgCyc .ignore) 5 exStC r dir = .ok (true, exStC))) :=
  ⟨rfl, wf_exStC, rfl, rfl, rfl, rfl,
   claim_C3_cyclic_ignore (cfgCyc .ignore) 5 exStC "/r/root.cpp" 0 0
     { canonical_path := "/r/root.cpp", included_by := none, line_num := 1,
       in_stack := true }
     { canonical_path := "/r/root.cpp", included_by := none, line_num := 1,
       in_stack := true }
     rfl wf_exStC rfl rfl rfl rfl rfl⟩

/-- Counterexample to the claimed wording of C3: in the cyclic_includes file
system under the Ignore policy the run succeeds, logs nothing, and the
re-entrant include line appears in the output: it is not dropped. -/
theorem claim_C3_counterexample :
    (run (cfgCyc .ignore) false 10 ["/r/root.cpp"]).map
        (fun s => (s.output, s.warnings)) =
      .ok (["#include <a.hpp>"], []) ∧
    (run (cfgCyc .ignore) false 10 ["/r/root.cpp"]).map
        (fun s => s.output) ≠ .ok [] := by
  constructor <;>
    simp +decide [run, process, processRecursively, processLines,
      processInclude, pushToStack, outputCopiedLine, errorHandlingHandle,
      collectCycleAux, lookupKnown, lookupFS, processorNew, cfgCyc, refShape,
      includeCapture, pragmaOnceMatch, dropWs, stripToken, refBodyChar,
      Except.bind, bind, pure, Except.pure, Except.map, List.foldlM]

/-- Claim C4: for every resolved path and include kind, the inlining decision
evaluates the path against the merged, original-order-preserving glob list for
that kind; if at least one glob matches, the decision equals the polarity of
the last matching glob in merged order (an inverted glob, written with an
exclamation-mark prefix, forces inlining; a non-inverted glob excludes from
inlining); if no glob matches, the decision is to inline. -/
theorem claim_C4_inlining_filter {α : Type} (m : String → String → Bool)
    (path : String) (infos : List GlobInfo) (g : String)
    (xs ys : List (Nat × α))
    (hxs : xs.Pairwise (fun a b => a.1 < b.1))
    (hys : ys.Pairwise (fun a b => a.1 < b.1))
    (hdisj : ∀ p ∈ xs, ∀ q ∈ ys, p.1 ≠ q.1) :
    check_should_inline m path infos = lastMatchDecision m path infos ∧
    ((∀ gi ∈ infos, m gi.str path = false) →
      check_should_inline m path infos = true) ∧
    (g.startsWith "!" →
      invertibleGlobFromStr g = { str := g.drop 1, inverted := true }) ∧
    (¬ g.startsWith "!" →
      invertibleGlobFromStr g = { str := g, inverted := false }) ∧
    (∀ z, z ∈ mergeByCliOrder xs ys ↔ z ∈ xs ∨ z ∈ ys) ∧
    (mergeByCliOrder xs ys).Pairwise (fun a b => a.1 < b.1) := by
  refine ⟨check_should_inline_eq_lastMatch m path infos, ?_,
    (invertibleGlobFromStr_spec g).1, (invertibleGlobFromStr_spec g).2,
    fun z => mem_mergeByCliOrder xs ys z,
    mergeByCliOrder_pairwise xs ys hxs hys hdisj⟩
  intro hnone
  rw [check_should_inline_eq_lastMatch]
  unfold lastMatchDecision
  have hfind : infos.reverse.find? (fun gi => m gi.str path) = none := by
    rw [List.find?_eq_none]
    intro gi hgi
    simp [hnone gi (List.mem_reverse.mp hgi)]
  rw [hfind]

theorem claim_C4_witness :
    ([((0 : Nat), "x")].Pairwise (fun a b => a.1 < b.1)) ∧
    ([((1 : Nat), "y")].Pairwise (fun a b => a.1 < b.1)) ∧
    (∀ p ∈ [((0 : Nat), "x")], ∀ q ∈ [((1 : Nat), "y")], p.1 ≠ q.1) ∧
    (check_should_inline (fun pat p => pat == p) "/d/a.hpp"
        [{ str := "/d/a.hpp", inverted := false }] =
      lastMatchDecision (fun pat p => pat == p) "/d/a.hpp"
        [{ str := "/d/a.hpp", inverted := false }] ∧
    ((∀ gi ∈ [({ str := "/d/a.hpp", inverted := false } : GlobInfo)],
        (fun pat p => pat == p) gi.str "/d/a.hpp" = false) →
      check_should_inline (fun pat p => pat == p) "/d/a.hpp"
        [{ str := "/d/a.hpp", inverted := false }] = true) ∧
    (("!a".startsWith "!") →
      invertibleGlobFromStr "!a" = { str := "!a".drop 1, inverted := true }) ∧
    (¬ ("!a".startsWith "!") →
      invertibleGlobFromStr "!a" = { str := "!a", inverted := false }) ∧
    (∀ z, z ∈ mergeByCliOrder [((0 : Nat), "x")] [((1 : Nat), "y")] ↔
      z ∈ [((0 : Nat), "x")] ∨ z ∈ [((1 : Nat), "y")]) ∧
    (mergeByCliOrder [((0 : Nat), "x")] [((1 : Nat), "y")]).Pairwise
      (fun a b => a.1 < b.1)) :=
  ⟨by decide, by decide, by decide,
   claim_C4_inlining_filter (fun pat p => pat == p) "/d/a.hpp"
     [{ str := "/d/a.hpp", inverted := false }] "!a"
     [((0 : Nat), "x")] [((1 : Nat), "y")]
     (by decide) (by decide) (by decide)⟩

/-- Claim C5: for an include reference whose path does not resolve, the
configured unresolvable-include policy of its kind decides the outcome: Error
aborts the run with a descriptive message, Warn logs a warning and keeps the
include line verbatim, Ignore keeps the line verbatim with no log; in all
three cases there is no recursion (the state is otherwise untouched). -/
theorem claim_C5_unresolvable_include (cfg : Config) (fuel : Nat)
    (s : ProcState) (r : List Char) (dir : String) (is_system : Bool)
    (h3 : 3 ≤ r.length) (hshape : refShape r = some is_system)
    (hres : (if is_system then cfg.resolveSystem (String.mk ((r.drop 1).dropLast))
             else cfg.resolveQuote (String.mk ((r.drop 1).dropLast)) dir) = none) :
    ((if is_system then cfg.opts.unresolvable_system_include
      else cfg.opts.unresolvable_quote_include) = .error →
      processInclude cfg fuel s r dir =
        .error (.fatal ("Could not resolve " ++ String.mk r))) ∧
    ((if is_system then cfg.opts.unresolvable_system_include
      else cfg.opts.unresolvable_quote_include) = .warn →
      processInclude cfg fuel s r dir =
        .ok (true, { s with
          warnings := s.warnings ++ ["Could not resolve " ++ String.mk r] })) ∧
    ((if is_system then cfg.opts.unresolvable_system_include
      else cfg.opts.unresolvable_quote_include) = .ignore →
      processInclude cfg fuel s r dir = .ok (true, s)) := by
  have hlt : ¬ r.length < 3 := by omega
  simp only [List.drop_one] at hres
  refine ⟨fun hpol => ?_, fun hpol => ?_, fun hpol => ?_⟩ <;>
    simp [processInclude, hlt, hshape, hres, hpol, errorHandlingHandle,
      Except.bind, bind]

theorem claim_C5_witness :
    3 ≤ ("<x.h>".toList).length ∧
    refShape ("<x.h>".toList) = some true ∧
    (if true then cfgNoRes.resolveSystem
        (String.mk ((("<x.h>".toList).drop 1).dropLast))
     else cfgNoRes.resolveQuote
        (String.mk ((("<x.h>".toList).drop 1).dropLast)) "/r") = none ∧
    (((if true then cfgNoRes.opts.unresolvable_system_include
       else cfgNoRes.opts.unresolvable_quote_include) = .error →
      processInclude cfgNoRes 5 (processorNew false) ("<x.h>".toList) "/r" =
        .error (.fatal ("Could not resolve " ++ String.mk ("<x.h>".toList)))) ∧
    ((if true then cfgNoRes.opts.unresolvable_system_include
      else cfgNoRes.opts.unresolvable_quote_include) = .warn →
      processInclude cfgNoRes 5 (processorNew false) ("<x.h>".toList) "/r" =
        .ok (true, { processorNew false with
          warnings := (processorNew false).warnings ++
            ["Could not resolve " ++ String.mk ("<x.h>".toList)] })) ∧
    ((if true then cfgNoRes.opts.unresolvable_system_include
      else cfgNoRes.opts.unresolvable_quote_include) = .ignore →
      processInclude cfgNoRes 5 (processorNew false) ("<x.h>".toList) "/r" =
        .ok (true, processorNew false))) :=
  ⟨by decide, by decide, by decide,
   claim_C5_unresolvable_include cfgNoRes 5 (processorNew false)
     ("<x.h>".toList) "/r" true (by decide) (by decide) (by decide)⟩

/-- Claim C7: with line directives enabled, a copied line whose (file
identity, line number) pair differs from the expectation is preceded by a
directive of the form "#line N \x22path\x22" with N the 1-based line number
and the canonical path of the current file, and the expectation becomes
(identity, N + 1); a copied line that meets the expectation produces no
directive; the initial expectation of a fresh processor is the never-met
(empty, 0), and the read loop increments the 1-based counter before copying. -/
theorem claim_C7_line_directives (s : ProcState) (line : String) (t : Nat)
    (f : FileState) (exp : LineRef)
    (he : s.expected_line = some exp) (ht : s.tail_idx = some t)
    (hf : s.files[t]? = some f) :
    (({ file_idx := some t, num := f.line_num } : LineRef) ≠ exp →
      outputCopiedLine s line = .ok { s with
        output := s.output ++ [lineDirective f.line_num f.canonical_path, line],
        expected_line := some { file_idx := some t, num := f.line_num + 1 } }) ∧
    (({ file_idx := some t, num := f.line_num } : LineRef) = exp →
      outputCopiedLine s line = .ok { s with
        output := s.output ++ [line],
        expected_line := some { file_idx := some t, num := f.line_num + 1 } }) ∧
    lineDirective f.line_num f.canonical_path =
      "#line " ++ toString f.line_num ++ " \"" ++ f.canonical_path ++ "\"" ∧
    (processorNew true).expected_line = some { file_idx := none, num := 0 } ∧
    (∀ (cfg : Config) (fuel : Nat) (dir : String) (rest : List String),
      pragmaOnceMatch line.toList = false →
      includeCapture line.toList = none →
      processLines cfg fuel dir (line :: rest) s =
        (do
          let s3 ← outputCopiedLine
            { s with files := s.files.set t { f with line_num := f.line_num + 1 } }
            line
          processLines cfg fuel dir rest s3)) := by
  refine ⟨fun hne => ?_, fun heq => ?_, rfl, rfl, fun cfg fuel dir rest hp hc => ?_⟩
  · simp [outputCopiedLine, he, ht, hf, hne]
  · simp [outputCopiedLine, he, ht, hf, heq]
  · have hp2 : pragmaOnceMatch line.data = false := hp
    have hc2 : includeCapture line.data = none := hc
    rw [processLines]
    simp [ht, hf, hp2, hc2]

theorem claim_C7_witness :
    exSt7.expected_line = some { file_idx := some 0, num := 7 } ∧
    exSt7.tail_idx = some 0 ∧
    exSt7.files[0]? = some { canonical_path := "/d/a.hpp", included_by := none,
                             line_num := 3, in_stack := true } ∧
    ((({ file_idx := some 0, num := (3 : Nat) } : LineRef) ≠
        { file_idx := some 0, num := 7 } →
      outputCopiedLine exSt7 "arst" = .ok { exSt7 with
        output := exSt7.output ++ [lineDirective 3 "/d/a.hpp", "arst"],
        expected_line := some { file_idx := some 0, num := 3 + 1 } }) ∧
    (({ file_idx := some 0, num := (3 : Nat) } : LineRef) =
        { file_idx := some 0, num := 7 } →
      outputCopiedLine exSt7 "arst" = .ok { exSt7 with
        output := exSt7.output ++ ["arst"],
        expected_line := some { file_idx := some 0, num := 3 + 1 } }) ∧
    lineDirective 3 "/d/a.hpp" =
      "#line " ++ toString (3 : Nat) ++ " \"" ++ "/d/a.hpp" ++ "\"" ∧
    (processorNew true).expected_line = some { file_idx := none, num := 0 } ∧
    (∀ (cfg : Config) (fuel : Nat) (dir : String) (rest : List String),
      pragmaOnceMatch ("arst".toList) = false →
      includeCapture ("arst".toList) = none →
      processLines cfg fuel dir ("arst" :: rest) exSt7 =
        (do
          let s3 ← outputCopiedLine
            { exSt7 with
              files := exSt7.files.set 0
                { canonical_path := "/d/a.hpp", included_by := none,
                  line_num := 3 + 1, in_stack := true } } "arst"
          processLines cfg fuel dir rest s3))) := by
  refine ⟨rfl, rfl, rfl, ?_⟩
  have h := claim_C7_line_directives exSt7 "arst" 0
    { canonical_path := "/d/a.hpp", included_by := none,
      line_num := 3, in_stack := true }
    { file_idx := some 0, num := 7 } rfl rfl rfl
  exact h

/-- Claim C8 (corrected): a line is treated as a quote include reference iff
it matches the tolerated-whitespace include shape with a quoted body that is
nonempty and contains neither a double quote nor a closing angle bracket (the
claim allowed any quote-free body, including the empty one); a line is a
system reference iff it matches the angle-bracket shape with a body that is
nonempty and free of double quotes and closing angle brackets (an opening
angle bracket is tolerated, contrary to the claim); an include-like line with
any other delimiter pair is passed through with no state change. -/
theorem claim_C8_reference_grammar (line : List Char) :
    ((∃ X, lineIncludeClass line = some (false, X)) ↔ CodeQuoteRef line) ∧
    ((∃ X, lineIncludeClass line = some (true, X)) ↔ CodeSystemRef line) ∧
    (∀ (cfg : Config) (fuel : Nat) (s : ProcState) (dir : String)
        (cap : List Char),
      includeCapture line = some cap → refShape cap = none →
      processInclude cfg fuel s cap dir = .ok (true, s)) := by
  refine ⟨⟨?_, ?_⟩, ⟨?_, ?_⟩, ?_⟩
  · rintro ⟨X, hX⟩
    unfold lineIncludeClass at hX
    split at hX
    next => cases hX
    next cap hcap =>
      cases hshape : refShape cap with
      | none => rw [hshape] at hX; cases hX
      | some b =>
        rw [hshape] at hX
        simp only [Option.map_some', Option.some.injEq, Prod.mk.injEq] at hX
        obtain ⟨hb, -⟩ := hX
        subst hb
        obtain ⟨w1, w2, w3, od, body, cd, w4, hline, hw1, hw2, hw3, hw4,
          hod, hcd, hbody, hbc, hcapv⟩ := includeCapture_eq_some_iff.mp hcap
        subst hcapv
        rw [show ((od :: body) ++ [cd] : List Char) = od :: (body ++ [cd])
          from by simp] at hshape
        have hlast : (od :: (body ++ [cd])).getLast? = some cd := by
          rw [show od :: (body ++ [cd]) = (od :: body) ++ [cd] from by simp]
          exact List.getLast?_concat _
        unfold refShape at hshape
        simp only [List.head?_cons, hlast] at hshape
        split at hshape
        next hcond =>
          simp only [Bool.and_eq_true, decide_eq_true_eq,
            Option.some.injEq] at hcond
          obtain ⟨hodq, hcdq⟩ := hcond
          subst hodq
          subst hcdq
          exact ⟨w1, w2, w3, body, w4, hline, hw1, hw2, hw3, hw4, hbody, hbc⟩
        next =>
          split at hshape
          · cases hshape
          · cases hshape
  · rintro ⟨w1, w2, w3, X, w4, hline, hw1, hw2, hw3, hw4, hXne, hXc⟩
    have hcap : includeCapture line = some ('"' :: (X ++ ['"'])) :=
      includeCapture_eq_some_iff.mpr
        ⟨w1, w2, w3, '"', X, '"', w4, hline, hw1, hw2, hw3, hw4,
         Or.inl rfl, Or.inl rfl, hXne, hXc, rfl⟩
    have hlast : ('"' :: (X ++ ['"'])).getLast? = some '"' := by
      rw [show ('"' :: (X ++ ['"']) : List Char) = ('"' :: X) ++ ['"'] from
        by simp]
      exact List.getLast?_concat _
    refine ⟨X, ?_⟩
    unfold lineIncludeClass refShape
    rw [hcap]
    simp [hlast, List.dropLast_concat]
  · rintro ⟨X, hX⟩
    unfold lineIncludeClass at hX
    split at hX
    next => cases hX
    next cap hcap =>
      cases hshape : refShape cap with
      | none => rw [hshape] at hX; cases hX
      | some b =>
        rw [hshape] at hX
        simp only [Option.map_some', Option.some.injEq, Prod.mk.injEq] at hX
        obtain ⟨hb, -⟩ := hX
        subst hb
        obtain ⟨w1, w2, w3, od, body, cd, w4, hline, hw1, hw2, hw3, hw4,
          hod, hcd, hbody, hbc, hcapv⟩ := includeCapture_eq_some_iff.mp hcap
        subst hcapv
        rw [show ((od :: body) ++ [cd] : List Char) = od :: (body ++ [cd])
          from by simp] at hshape
        have hlast : (od :: (body ++ [cd])).getLast? = some cd := by
          rw [show od :: (body ++ [cd]) = (od :: body) ++ [cd] from by simp]
          exact List.getLast?_concat _
        unfold refShape at hshape
        simp only [List.head?_cons, hlast] at hshape
        split at hshape
        next => cases hshape
        next =>
          split at hshape
          next hcond =>
            simp only [Bool.and_eq_true, decide_eq_true_eq,
              Option.some.injEq] at hcond
            obtain ⟨hodq, hcdq⟩ := hcond
            subst hodq
            subst hcdq
            exact ⟨w1, w2, w3, body, w4, hline, hw1, hw2, hw3, hw4, hbody, hbc⟩
          next => cases hshape
  · rintro ⟨w1, w2, w3, X, w4, hline, hw1, hw2, hw3, hw4, hXne, hXc⟩
    have hcap : includeCapture line = some ('<' :: (X ++ ['>'])) :=
      includeCapture_eq_some_iff.mpr
        ⟨w1, w2, w3, '<', X, '>', w4, hline, hw1, hw2, hw3, hw4,
         Or.inr rfl, Or.inr rfl, hXne, hXc, rfl⟩
    have hlast : ('<' :: (X ++ ['>'])).getLast? = some '>' := by
      rw [show ('<' :: (X ++ ['>']) : List Char) = ('<' :: X) ++ ['>'] from
        by simp]
      exact List.getLast?_concat _
    refine ⟨X, ?_⟩
    unfold lineIncludeClass refShape
    rw [hcap]
    simp [hlast, List.dropLast_concat]
  · intro cfg fuel s dir cap hcap hshape
    have h3 := includeCapture_three_le hcap
    have hlt : ¬ cap.length < 3 := by omega
    simp [processInclude, hlt, hshape]

/-- Counterexample to the claimed grammar of C8: the line with body a>b
matches the claimed quote-include shape (its body is quote-free) yet the
engine does not treat it as a reference, and the same holds for an empty
quoted body; conversely a system include whose body contains an opening
angle bracket is accepted by the engine. -/
theorem claim_C8_counterexample :
    (ClaimQuoteRef ("#include \"a>b\"".toList) ∧
     lineIncludeClass ("#include \"a>b\"".toList) = none) ∧
    (ClaimQuoteRef ("#include \"\"".toList) ∧
     lineIncludeClass ("#include \"\"".toList) = none) ∧
    lineIncludeClass ("#include <a<b>".toList) = some (true, "a<b".toList) := by
  refine ⟨⟨⟨[], [], [' '], "a>b".toList, [],
      by decide, by unfold IsWsList; decide, by unfold IsWsList; decide,
      by unfold IsWsList; decide, by unfold IsWsList; decide, by decide⟩,
      by decide⟩,
    ⟨⟨[], [], [' '], [], [],
      by decide, by unfold IsWsList; decide, by unfold IsWsList; decide,
      by unfold IsWsList; decide, by unfold IsWsList; decide, by decide⟩,
      by decide⟩,
    by decide⟩

/-- Claim C9: the assertion guarding cycle reconstruction never fails: a run
never aborts with an internal bug (which is how failed assertions are
modelled); after every successful run the traversal stack is empty and no
record is left in-stack; and from a well-formed state with an empty stack an
already-known record is never in-stack, so no cycle can be detected at the
moment a root file is pushed. -/
theorem claim_C9_stack_assertions (cfg : Config) (ld : Bool) (fuel : Nat)
    (roots : List String) :
    (∀ m, run cfg ld fuel roots ≠ .error (.bug m)) ∧
    (∀ s', run cfg ld fuel roots = .ok s' →
      s'.tail_idx = none ∧ ∀ (i : Nat) (f : FileState),
        s'.files[i]? = some f → f.in_stack = false) ∧
    (∀ s : ProcState, WF s → s.tail_idx = none →
      ∀ (p : String) (i : Nat) (f : FileState),
        lookupKnown s.known_files p = some i → s.files[i]? = some f →
        f.in_stack = false) := by
  refine ⟨?_, ?_, ?_⟩
  · intro m
    exact (runFold_spec cfg fuel roots (processorNew ld)
      (wf_processorNew ld) rfl).1 m
  · intro s' h
    obtain ⟨hwf', ht', -⟩ := (runFold_spec cfg fuel roots (processorNew ld)
      (wf_processorNew ld) rfl).2 s' h
    refine ⟨ht', fun i f hf => ?_⟩
    cases hin : f.in_stack
    · rfl
    · obtain ⟨t, htt, -⟩ := (hwf'.stackChar i f hf).mp hin
      rw [ht'] at htt
      cases htt
  · intro s hwf ht p i f hlook hf
    cases hin : f.in_stack
    · rfl
    · obtain ⟨t, htt, -⟩ := (hwf.stackChar i f hf).mp hin
      rw [ht] at htt
      cases htt

/-- Claim C10: a nested include preserves every pre-existing file record
exactly (canonical path, back-link and line counter included) and the tail
index, so the including file resumes with unchanged line numbering; records
created by the nested visit are appended after the old ones, and on return
none of them is left in-stack. -/
theorem claim_C10_nested_frame (cfg : Config) (fuel : Nat) (s : ProcState)
    (r : List Char) (dir : String) (hwf : WF s) (h3 : 3 ≤ r.length) :
    ∀ (b : Bool) (s' : ProcState),
      processInclude cfg fuel s r dir = .ok (b, s') →
      s'.tail_idx = s.tail_idx ∧
      (∀ i, i < s.files.length → s'.files[i]? = s.files[i]?) ∧
      s.files.length ≤ s'.files.length ∧
      (∀ t, s.tail_idx = some t → s'.files[t]? = s.files[t]?) ∧
      (∀ (i : Nat) (f : FileState), s.files.length ≤ i →
        s'.files[i]? = some f → f.in_stack = false) := by
  intro b s' hok
  obtain ⟨hwf', hmono, hlen, htaileq, hframe⟩ :=
    ((traversalSpec cfg fuel).2.1 s r dir hwf h3).2 b s' hok
  refine ⟨htaileq, hframe, hlen,
    fun t htt => hframe t (hwf.tailLt t htt), fun i f hge hf => ?_⟩
  cases hin : f.in_stack
  · rfl
  · obtain ⟨t, htt', hanc⟩ := (hwf'.stackChar i f hf).mp hin
    rw [htaileq] at htt'
    have htlen := hwf.tailLt t htt'
    have hile := Ancestor.le hwf'.inclLt hanc
    omega

theorem claim_C10_witness :
    WF (processorNew false) ∧ 3 ≤ ("<a.hpp>".toList).length ∧
    (∀ (b : Bool) (s' : ProcState),
      processInclude cfgOnce 10 (processorNew false) ("<a.hpp>".toList) "/r" =
        .ok (b, s') →
      s'.tail_idx = (processorNew false).tail_idx ∧
      (∀ i, i < (processorNew false).files.length →
        s'.files[i]? = (processorNew false).files[i]?) ∧
      (processorNew false).files.length ≤ s'.files.length ∧
      (∀ t, (processorNew false).tail_idx = some t →
        s'.files[t]? = (processorNew false).files[t]?) ∧
      (∀ (i : Nat) (f : FileState), (processorNew false).files.length ≤ i →
        s'.files[i]? = some f → f.in_stack = false)) :=
  ⟨wf_processorNew false, by decide,
   claim_C10_nested_frame cfgOnce 10 (processorNew false) ("<a.hpp>".toList)
     "/r" (wf_processorNew false) (by decide)⟩

/-- Claim C6 (corrected): with blank-line trimming enabled the legacy engine
buffers every blank line; the buffer is discarded at end of file and before a
copied line while the file has not yet written anything of its own, and it is
emitted in full (exact count, with directives and comments off) before a
copied line once the file has written; contrary to the last part of the
claim, a successfully inlined nested file does not end the parent's
leading-trim phase: the parent resumes with its has_written flag from before
the include, the buffered blanks being merely discarded when the nested file
wrote. -/
theorem claim_C6_blank_trimming (o : V1.Opts) (cfg : V1.Cfg) (fuel : Nat)
    (dir : String) (ho : o.trim_blank = true) :
    (o.file_end_comment = none →
      ∀ (n : Nat) (deferred : List (String × Nat)) (s : V1.St),
        V1.v1ProcessLines o cfg fuel dir [] n deferred s = .ok s) ∧
    (∀ (line : String) (rest : List String) (n : Nat)
        (deferred : List (String × Nat)) (s : V1.St),
      V1.trimEndChars line.toList = [] →
      V1.v1ProcessLines o cfg fuel dir (line :: rest) n deferred s =
        V1.v1ProcessLines o cfg fuel dir rest (n + 1)
          (deferred ++ [(line, n + 1)]) s) ∧
    (∀ (line : String) (rest : List String) (n : Nat)
        (deferred : List (String × Nat)) (s : V1.St),
      V1.trimEndChars line.toList ≠ [] →
      pragmaOnceMatch (V1.trimEndChars line.toList) = false →
      V1.v1IncludeCapture (V1.trimEndChars line.toList) = none →
      s.current.has_written = false →
      V1.v1ProcessLines o cfg fuel dir (line :: rest) n deferred s =
        V1.v1ProcessLines o cfg fuel dir rest (n + 1) []
          (V1.emitLine o s line (n + 1))) ∧
    (∀ (line : String) (rest : List String) (n : Nat)
        (deferred : List (String × Nat)) (s : V1.St),
      V1.trimEndChars line.toList ≠ [] →
      pragmaOnceMatch (V1.trimEndChars line.toList) = false →
      V1.v1IncludeCapture (V1.trimEndChars line.toList) = none →
      s.current.has_written = true →
      V1.v1ProcessLines o cfg fuel dir (line :: rest) n deferred s =
        V1.v1ProcessLines o cfg fuel dir rest (n + 1) []
          (V1.emitLine o (V1.emitBlankLines o s deferred) line (n + 1))) ∧
    (o.line_directives = false → o.file_begin_comment = none →
      ∀ (s : V1.St) (deferred : List (String × Nat)),
        (V1.emitBlankLines o s deferred).output =
          s.output ++ deferred.map Prod.fst) ∧
    (∀ (line : String) (rest : List String) (n : Nat)
        (deferred : List (String × Nat)) (s : V1.St)
        (path : List Char) (canonical display : String) (s4 : V1.St),
      V1.trimEndChars line.toList ≠ [] →
      pragmaOnceMatch (V1.trimEndChars line.toList) = false →
      V1.v1IncludeCapture (V1.trimEndChars line.toList) = some path →
      cfg.resolve (String.mk path) dir = some (canonical, display) →
      V1.lookupPS s.known_files canonical = none →
      s.current.has_written = false →
      V1.v1Process o cfg fuel
        { s with
          known_files := V1.insertPS s.known_files canonical
            (.inStack s.stack.length),
          stack := s.stack ++ [s.current],
          current := { canonical_path := canonical, display_path := display,
                       has_written := false } } = .ok s4 →
      s4.stack.getLast? = some s.current ∧
      V1.v1ProcessLines o cfg fuel dir (line :: rest) n deferred s =
        V1.v1ProcessLines o cfg fuel dir rest (n + 1)
          (if s4.current.has_written then [] else deferred)
          { s4 with
            stack := s4.stack.dropLast,
            current := s.current,
            known_files := V1.insertPS s4.known_files
              s4.current.canonical_path .done }) := by
  have hempty : ∀ (l : List Char), l = [] → l.isEmpty = true := by
    intro l hl
    subst hl
    rfl
  have hnonempty : ∀ (l : List Char), l ≠ [] → l.isEmpty = false := by
    intro l hl
    cases l with
    | nil => exact absurd rfl hl
    | cons c cs => rfl
  refine ⟨?_, ?_, ?_, ?_, ?_, ?_⟩
  · intro hec n deferred s
    simp [V1.v1ProcessLines, ho, hec]
  · intro line rest n deferred s hblank
    have hb2 : V1.trimEndChars line.data = [] := hblank
    rw [V1.v1ProcessLines]
    simp [hempty _ hb2, ho]
  · intro line rest n deferred s htne hprag hcap hhw
    have ht2 : V1.trimEndChars line.data ≠ [] := htne
    have hp2 : pragmaOnceMatch (V1.trimEndChars line.data) = false := hprag
    have hc2 : V1.v1IncludeCapture (V1.trimEndChars line.data) = none := hcap
    rw [V1.v1ProcessLines]
    simp [hnonempty _ ht2, hp2, hc2, ho, hhw]
  · intro line rest n deferred s htne hprag hcap hhw
    have ht2 : V1.trimEndChars line.data ≠ [] := htne
    have hp2 : pragmaOnceMatch (V1.trimEndChars line.data) = false := hprag
    have hc2 : V1.v1IncludeCapture (V1.trimEndChars line.data) = none := hcap
    rw [V1.v1ProcessLines]
    simp [hnonempty _ ht2, hp2, hc2, ho, hhw]
  · intro hld hbc s deferred
    induction deferred generalizing s with
    | nil => simp [V1.emitBlankLines]
    | cons x ls ih =>
      show (V1.emitBlankLines o (V1.emitLine o s x.1 x.2) ls).output = _
      rw [ih]
      simp [V1.emitLine, hld, hbc]
  · intro line rest n deferred s path canonical display s4
      htne hprag hcap hres hlook hhw hv4
    have ht2 : V1.trimEndChars line.data ≠ [] := htne
    have hp2 : pragmaOnceMatch (V1.trimEndChars line.data) = false := hprag
    have hc2 : V1.v1IncludeCapture (V1.trimEndChars line.data) = some path := hcap
    have hst := v1Process_stack o cfg fuel _ s4 hv4
    have hlast : s4.stack.getLast? = some s.current := by
      rw [hst]
      simp
    refine ⟨hlast, ?_⟩
    rw [V1.v1ProcessLines]
    simp [hnonempty _ ht2, hnonempty _ htne, ho, hp2, hprag, hc2, hcap,
      hres, hlook, hhw, bind, Except.bind, hv4, hlast]

theorem claim_C6_witness :
    oTrim.trim_blank = true ∧
    ((oTrim.file_end_comment = none →
      ∀ (n : Nat) (deferred : List (String × Nat)) (s : V1.St),
        V1.v1ProcessLines oTrim cfg6 5 "/r" [] n deferred s = .ok s) ∧
    (∀ (line : String) (rest : List String) (n : Nat)
        (deferred : List (String × Nat)) (s : V1.St),
      V1.trimEndChars line.toList = [] →
      V1.v1ProcessLines oTrim cfg6 5 "/r" (line :: rest) n deferred s =
        V1.v1ProcessLines oTrim cfg6 5 "/r" rest (n + 1)
          (deferred ++ [(line, n + 1)]) s) ∧
    (∀ (line : String) (rest : List String) (n : Nat)
        (deferred : List (String × Nat)) (s : V1.St),
      V1.trimEndChars line.toList ≠ [] →
      pragmaOnceMatch (V1.trimEndChars line.toList) = false →
      V1.v1IncludeCapture (V1.trimEndChars line.toList) = none →
      s.current.has_written = false →
      V1.v1ProcessLines oTrim cfg6 5 "/r" (line :: rest) n deferred s =
        V1.v1ProcessLines oTrim cfg6 5 "/r" rest (n + 1) []
          (V1.emitLine oTrim s line (n + 1))) ∧
    (∀ (line : String) (rest : List String) (n : Nat)
        (deferred : List (String × Nat)) (s : V1.St),
      V1.trimEndChars line.toList ≠ [] →
      pragmaOnceMatch (V1.trimEndChars line.toList) = false →
      V1.v1IncludeCapture (V1.trimEndChars line.toList) = none →
      s.current.has_written = true →
      V1.v1ProcessLines oTrim cfg6 5 "/r" (line :: rest) n deferred s =
        V1.v1ProcessLines oTrim cfg6 5 "/r" rest (n + 1) []
          (V1.emitLine oTrim (V1.emitBlankLines oTrim s deferred) line
            (n + 1))) ∧
    (oTrim.line_directives = false → oTrim.file_begin_comment = none →
      ∀ (s : V1.St) (deferred : List (String × Nat)),
        (V1.emitBlankLines oTrim s deferred).output =
          s.output ++ deferred.map Prod.fst) ∧
    (∀ (line : String) (rest : List String) (n : Nat)
        (deferred : List (String × Nat)) (s : V1.St)
        (path : List Char) (canonical display : String) (s4 : V1.St),
      V1.trimEndChars line.toList ≠ [] →
      pragmaOnceMatch (V1.trimEndChars line.toList) = false →
      V1.v1IncludeCapture (V1.trimEndChars line.toList) = some path →
      cfg6.resolve (String.mk path) "/r" = some (canonical, display) →
      V1.lookupPS s.known_files canonical = none →
      s.current.has_written = false →
      V1.v1Process oTrim cfg6 5
        { s with
          known_files := V1.insertPS s.known_files canonical
            (.inStack s.stack.length),
          stack := s.stack ++ [s.current],
          current := { canonical_path := canonical, display_path := display,
                       has_written := false } } = .ok s4 →
      s4.stack.getLast? = some s.current ∧
      V1.v1ProcessLines oTrim cfg6 5 "/r" (line :: rest) n deferred s =
        V1.v1ProcessLines oTrim cfg6 5 "/r" rest (n + 1)
          (if s4.current.has_written then [] else deferred)
          { s4 with
            stack := s4.stack.dropLast,
            current := s.current,
            known_files := V1.insertPS s4.known_files
              s4.current.canonical_path .done })) :=
  ⟨rfl, claim_C6_blank_trimming oTrim cfg6 5 "/r" rfl⟩

/-- Counterexample to the claimed wording of C6: in the cfg6 file system the
nested file a.h is inlined successfully and writes a line, the parent then
has a blank line followed by a non-blank line, and the blank line is dropped
from the output even though it sits strictly between two emitted non-blank
lines; the claimed reading predicts it preserved. -/
theorem claim_C6_counterexample :
    (V1.v1Run oTrim cfg6 5 "/r/main.cpp" "main.cpp").map V1.St.output =
      .ok ["qwfp", "x"] ∧
    (V1.v1Run oTrim cfg6 5 "/r/main.cpp" "main.cpp").map V1.St.output ≠
      .ok ["qwfp", "", "x"] := by
  constructor <;>
    simp +decide [V1.v1Run, V1.v1Process, V1.v1ProcessLines, V1.emitLine,
      V1.emitBlankLines, V1.expandCommentTemplate, V1.trimEndChars,
      V1.v1IncludeCapture, V1.lookupPS, V1.insertPS, lookupFS, oTrim, cfg6,
      pragmaOnceMatch, dropWs, stripToken,
      Except.bind, bind, pure, Except.pure, Except.map, List.foldl]

end CppAmalgamate
